import Mathlib

/-
Verification development for the UTCP TypeScript SDK core
(universal-tool-calling-protocol/typescript-utcp-sdk).

The development shallowly embeds the client orchestration layer:
the variable-substitution engine, the manual/tool repository and
registration logic, the tag search strategy, and the MCP / CLI / HTTP
communication-protocol logic, and proves the stated properties about
those embeddings.  JavaScript strings are modelled as `List Char`,
JSON-like values as an inductive `JSValue`, and external effects
(protocol calls, file reads, fresh names) as explicit oracle
parameters.
-/

set_option maxRecDepth 4096

namespace Utcp

/-- JavaScript strings are modelled as lists of characters. -/
abbrev Str := List Char

/-- The regex word-character class `[a-zA-Z0-9_]` (`\w`). -/
def isWordChar (c : Char) : Bool := c.isAlpha || c.isDigit || c = '_'

/-- JSON-like JavaScript values (`null`, booleans, numbers, strings,
arrays, objects).  Numbers are modelled exactly as rationals; the claims
settled here never depend on IEEE-754 rounding. -/
inductive JSValue where
  | null : JSValue
  | bool (b : Bool) : JSValue
  | num (q : ℚ) : JSValue
  | str (s : Str) : JSValue
  | arr (items : List JSValue) : JSValue
  | obj (fields : List (Str × JSValue)) : JSValue

/-! ## Variable substitutor

Embeds `DefaultVariableSubstitutor`
(`packages/core/src/implementations/default_variable_substitutor.ts`):
`_getVariable`, and the string branch of `substitute`.  Also embeds the
token-resolution chain of the legacy client's inline engine
`UtcpClient._replaceVarsInObj`
(`packages/core/src/client/utcp_client.ts`, lines 221-298), which checks
the sources in a different order. -/

/-- A variable map (`config.variables`, a parsed dotenv file, or
`process.env`), as an association list. -/
abbrev VarMap := List (Str × Str)

/-- A JavaScript truthiness-respecting lookup: `if (m[k])` is false both
when the key is absent and when the stored value is the empty string. -/
def lookupTruthy (m : VarMap) (k : Str) : Option Str :=
  match m.lookup k with
  | some v => if v.isEmpty then none else some v
  | none => none

/-- `namespace.replace(/_/g, '__')`: double every underscore. -/
def nsDouble (ns : Str) : Str :=
  ns.flatMap (fun c => if c = '_' then ['_', '_'] else [c])

/-- The effective (namespaced) variable name:
`effectiveNamespace__key` when a namespace is given, else the bare key. -/
def effectiveName (ns : Option Str) (key : Str) : Str :=
  match ns with
  | some n => nsDouble n ++ ['_', '_'] ++ key
  | none => key

/-- The layered variable sources available to `_getVariable`:
`config.variables`, the configured dotenv loaders in declared order
(`none` models a file that could not be read — the loader is skipped
with a warning), and `process.env`. -/
structure VarConfig where
  vars : VarMap
  loaders : List (Option VarMap)
  env : VarMap

/-- The dotenv-loader stage of `DefaultVariableSubstitutor._getVariable`:
each loader in declared order, checking the namespaced key and then the
bare key; unreadable files are skipped. -/
def loadersFind : List (Option VarMap) → Str → Str → Option Str
  | [], _, _ => none
  | none :: rest, eff, key => loadersFind rest eff key
  | some m :: rest, eff, key =>
    match lookupTruthy m eff with
    | some v => some v
    | none =>
      match lookupTruthy m key with
      | some v => some v
      | none => loadersFind rest eff key

/-- `DefaultVariableSubstitutor._getVariable`: config variables, then
dotenv loaders in order, then process environment; in each source the
namespaced key is checked before the bare key.  On failure it throws
`UtcpVariableNotFoundError(key)` carrying the bare key. -/
def getVariable (key : Str) (cfg : VarConfig) (ns : Option Str) : Except Str Str :=
  let eff := effectiveName ns key
  match lookupTruthy cfg.vars eff with
  | some v => .ok v
  | none =>
    match lookupTruthy cfg.vars key with
    | some v => .ok v
    | none =>
      match loadersFind cfg.loaders eff key with
      | some v => .ok v
      | none =>
        match lookupTruthy cfg.env eff with
        | some v => .ok v
        | none =>
          match lookupTruthy cfg.env key with
          | some v => .ok v
          | none => .error key

/-- Errors escaping `DefaultVariableSubstitutor.substitute`: an
unresolved variable (`UtcpVariableNotFoundError`, carrying the variable
name) or an invalid namespace argument. -/
inductive SubstError where
  | varNotFound (name : Str) : SubstError
  | invalidNamespace (ns : Str) : SubstError
  deriving DecidableEq

/-- Lift a `_getVariable` failure into a substitution error. -/
def liftVar : Except Str Str → Except SubstError Str
  | .ok v => .ok v
  | .error k => .error (.varNotFound k)

theorem length_dropWhile_le (p : Char → Bool) (l : Str) :
    (l.dropWhile p).length ≤ l.length := by
  induction l with
  | nil => simp [List.dropWhile]
  | cons c rest ih =>
    by_cases h : p c
    · simp [List.dropWhile, h]; omega
    · simp [List.dropWhile, h]

/-- The string branch of `DefaultVariableSubstitutor.substitute`: scan
for `${NAME}` or `$NAME` tokens (regex
`/\$\{([a-zA-Z0-9_]+)\}|\$([a-zA-Z0-9_]+)/g`), replacing each resolved
token and aborting on the first unresolved variable. -/
def substString (cfg : VarConfig) (ns : Option Str) : Str → Except SubstError Str
  | [] => .ok []
  | c :: rest =>
    if c = '$' then
      match rest with
      | '{' :: r2 =>
        if (r2.takeWhile isWordChar).isEmpty then
          match substString cfg ns ('{' :: r2) with
          | .ok t => .ok (c :: t)
          | .error e => .error e
        else
          match h2 : r2.dropWhile isWordChar with
          | '}' :: r4 =>
            match liftVar (getVariable (r2.takeWhile isWordChar) cfg ns) with
            | .ok v =>
              match substString cfg ns r4 with
              | .ok t => .ok (v ++ t)
              | .error e => .error e
            | .error e => .error e
          | _ =>
            match substString cfg ns ('{' :: r2) with
            | .ok t => .ok (c :: t)
            | .error e => .error e
      | r =>
        if (r.takeWhile isWordChar).isEmpty then
          match substString cfg ns r with
          | .ok t => .ok (c :: t)
          | .error e => .error e
        else
          match liftVar (getVariable (r.takeWhile isWordChar) cfg ns) with
          | .ok v =>
            match substString cfg ns (r.dropWhile isWordChar) with
            | .ok t => .ok (v ++ t)
            | .error e => .error e
          | .error e => .error e
    else
      match substString cfg ns rest with
      | .ok t => .ok (c :: t)
      | .error e => .error e
termination_by s => s.length
decreasing_by
  all_goals simp
  all_goals try omega
  · have h1 := length_dropWhile_le isWordChar r2
    rw [h2] at h1
    simp at h1
    omega
  · have h1 := length_dropWhile_le isWordChar r
    omega

/-- Namespace validation in `substitute`: `^[a-zA-Z0-9_]+$`. -/
def validNamespace : Option Str → Bool
  | none => true
  | some ns => !ns.isEmpty && ns.all isWordChar

mutual

/-- Recursive traversal of `DefaultVariableSubstitutor.substitute`:
rewrite every string leaf, recurse through arrays and objects, and pass
other primitives through unchanged. -/
def substituteValue (cfg : VarConfig) (ns : Option Str) : JSValue → Except SubstError JSValue
  | .str s =>
    match substString cfg ns s with
    | .ok t => .ok (.str t)
    | .error e => .error e
  | .arr items =>
    match substituteItems cfg ns items with
    | .ok ts => .ok (.arr ts)
    | .error e => .error e
  | .obj fields =>
    match substituteFields cfg ns fields with
    | .ok fs => .ok (.obj fs)
    | .error e => .error e
  | v => .ok v

def substituteItems (cfg : VarConfig) (ns : Option Str) : List JSValue → Except SubstError (List JSValue)
  | [] => .ok []
  | v :: rest =>
    match substituteValue cfg ns v with
    | .ok v' =>
      match substituteItems cfg ns rest with
      | .ok rest' => .ok (v' :: rest')
      | .error e => .error e
    | .error e => .error e

def substituteFields (cfg : VarConfig) (ns : Option Str) : List (Str × JSValue) → Except SubstError (List (Str × JSValue))
  | [] => .ok []
  | (k, v) :: rest =>
    match substituteValue cfg ns v with
    | .ok v' =>
      match substituteFields cfg ns rest with
      | .ok rest' => .ok ((k, v') :: rest')
      | .error e => .error e
    | .error e => .error e

end

/-- `DefaultVariableSubstitutor.substitute`: validate the namespace,
then rewrite the whole JSON-like value. -/
def substitute (v : JSValue) (cfg : VarConfig) (ns : Option Str) : Except SubstError JSValue :=
  if validNamespace ns then substituteValue cfg ns v
  else
    match ns with
    | some n => .error (.invalidNamespace n)
    | none => .error (.invalidNamespace [])

/-- The token-resolution chain of the legacy client engine
`UtcpClient._replaceVarsInObj` (`packages/core/src/client/utcp_client.ts`
lines 232-271): config variables, then `process.env`, then the dotenv
loaders, namespaced key before bare key in each source; on failure it
throws `UtcpVariableNotFoundError(effectiveVarName)` carrying the
namespaced name.  Loader files are modelled as readable (a read failure
takes a different path: the token is left in place with a warning). -/
def legacyResolveVar (key : Str) (vars env : VarMap)
    (loaders : List VarMap) (ns : Option Str) : Except Str Str :=
  let eff := effectiveName ns key
  match lookupTruthy vars eff with
  | some v => .ok v
  | none =>
    match lookupTruthy vars key with
    | some v => .ok v
    | none =>
      match lookupTruthy env eff with
      | some v => .ok v
      | none =>
        match lookupTruthy env key with
        | some v => .ok v
        | none =>
          match loadersFind (loaders.map some) eff key with
          | some v => .ok v
          | none => .error eff

theorem takeWhile_word_stop (key : Str) (c : Char) (rs : Str)
    (h : ∀ d ∈ key, isWordChar d = true) (hc : isWordChar c = false) :
    (key ++ c :: rs).takeWhile isWordChar = key ∧
    (key ++ c :: rs).dropWhile isWordChar = c :: rs := by
  induction key with
  | nil => simp [List.takeWhile, List.dropWhile, hc]
  | cons d t ih =>
    have hd : isWordChar d = true := h d (by simp)
    have ht := ih (fun x hx => h x (by simp [hx]))
    simp [List.takeWhile, List.dropWhile, hd, ht.1, ht.2]

theorem lookupTruthy_nil (k : Str) : lookupTruthy [] k = none := rfl

theorem lookupTruthy_cons_self (k v : Str) (rest : VarMap) (hv : v ≠ []) :
    lookupTruthy ((k, v) :: rest) k = some v := by
  simp [lookupTruthy, List.lookup, hv]

theorem lookupTruthy_cons_ne (k k' v : Str) (rest : VarMap) (hne : k' ≠ k) :
    lookupTruthy ((k, v) :: rest) k' = lookupTruthy rest k' := by
  have hb : (k' == k) = false := beq_eq_false_iff_ne.mpr hne
  simp [lookupTruthy, List.lookup, hb]

theorem nsDouble_length_pos (ns : Str) (h : ns ≠ []) : 0 < (nsDouble ns).length := by
  cases ns with
  | nil => simp at h
  | cons c t =>
    simp only [nsDouble, List.flatMap_cons, List.length_append]
    by_cases hc : c = '_' <;> simp [hc]

theorem effectiveName_ne_key (ns key : Str) (h : ns ≠ []) :
    effectiveName (some ns) key ≠ key := by
  intro hEq
  have hlen := congrArg List.length hEq
  have hpos := nsDouble_length_pos ns h
  simp [effectiveName] at hlen
  omega

/-- Evaluating the string substitution on a single `${key}` token reduces
to a `_getVariable` lookup. -/
theorem substString_brace_token (cfg : VarConfig) (ns : Option Str) (key : Str)
    (hk : key ≠ []) (hw : ∀ c ∈ key, isWordChar c = true) :
    substString cfg ns ('$' :: '{' :: (key ++ ['}'])) =
      match getVariable key cfg ns with
      | .ok v => .ok v
      | .error k => .error (.varNotFound k) := by
  have hstop := takeWhile_word_stop key '}' [] hw (by decide)
  rw [substString]
  simp only [hstop.1, hstop.2, List.isEmpty_iff, if_true]
  cases key with
  | nil => exact absurd rfl hk
  | cons c t =>
    simp only [List.cons_append] at hstop ⊢
    rw [if_neg (List.cons_ne_nil c t)]
    cases hg : getVariable (c :: t) cfg ns with
    | ok v =>
      simp only [liftVar, hg]
      split
      · rename_i r4 heq
        rw [hstop.2] at heq
        simp only [List.cons.injEq, true_and] at heq
        subst heq
        simp [substString]
      · rename_i hne
        exact absurd hstop.2 (fun h => hne [] h)
    | error k =>
      simp only [liftVar, hg]
      split
      · rfl
      · rename_i hne
        exact absurd hstop.2 (fun h => hne [] h)

/-- Substituting a single-token string through the public `substitute`
entry point reduces to a `_getVariable` lookup. -/
theorem substitute_str_token (cfg : VarConfig) (ns key : Str)
    (hns : ns ≠ []) (hnsw : ∀ c ∈ ns, isWordChar c = true)
    (hk : key ≠ []) (hkw : ∀ c ∈ key, isWordChar c = true) :
    substitute (.str ('$' :: '{' :: (key ++ ['}']))) cfg (some ns) =
      match getVariable key cfg (some ns) with
      | .ok v => .ok (.str v)
      | .error k => .error (.varNotFound k) := by
  have hval : validNamespace (some ns) = true := by
    simp [validNamespace, List.isEmpty_iff, hns, List.all_eq_true]
    exact hnsw
  rw [substitute, if_pos hval, substituteValue,
    substString_brace_token cfg (some ns) key hk hkw]
  cases getVariable key cfg (some ns) <;> rfl

theorem C1_counterexample_aux (ns key vf ve : Str)
    (hns : ns ≠ []) (hvf : vf ≠ []) (hve : ve ≠ []) (hfe : vf ≠ ve) :
    legacyResolveVar key [] [(key, ve)] [[(key, vf)]] (some ns) = .ok ve ∧ ve ≠ vf := by
  have hne := effectiveName_ne_key ns key hns
  constructor
  · simp only [legacyResolveVar, lookupTruthy_nil,
      lookupTruthy_cons_ne _ _ _ _ hne, lookupTruthy_cons_self _ _ _ hve]
  · exact fun h => hfe h.symm

/-- C1 (counterexample): the claim's resolution order fails on the legacy
client engine `UtcpClient._replaceVarsInObj`
(`packages/core/src/client/utcp_client.ts` lines 221-298, one of the two
substitution engines the claim covers).  With no config variable, a
dotenv loader defining `X=file`, and the environment defining `X=env`,
resolving the token `${X}` under namespace `NS` yields `env`, not the
`file` required by the claim: the legacy engine checks the process
environment before the dotenv loaders. -/
theorem C1_counterexample :
    legacyResolveVar "X".toList [] [("X".toList, "env".toList)]
        [[("X".toList, "file".toList)]] (some "NS".toList) = .ok "env".toList ∧
    "env".toList ≠ "file".toList := by
  refine ⟨(C1_counterexample_aux "NS".toList "X".toList "file".toList "env".toList
    (by decide) (by decide) (by decide) (by decide)).1, by decide⟩

/-- C1 (amended): for the `DefaultVariableSubstitutor` engine, substituting
the token `${key}` under a well-formed namespace resolves against the
sources in the order config variables, then each dotenv loader in declared
order, then the process environment, checking the namespaced key
(namespace with underscores doubled, followed by `__key`) before the bare
key; with config defining the namespaced key, a loader defining the bare
key, and the environment defining the bare key, the config value wins;
without the config entry the loader value wins; with only the environment
entry the environment value wins; with none the substitution fails with a
`UtcpVariableNotFoundError` carrying the bare key.  (The legacy client's
inline engine `_replaceVarsInObj` instead checks the environment before
the loaders; see the counterexample.) -/
theorem C1_default_substitutor_precedence (ns key vc vf ve : Str)
    (hns : ns ≠ []) (hnsw : ∀ c ∈ ns, isWordChar c = true)
    (hk : key ≠ []) (hkw : ∀ c ∈ key, isWordChar c = true)
    (hvc : vc ≠ []) (hvf : vf ≠ []) (hve : ve ≠ []) :
    substitute (.str ('$' :: '{' :: (key ++ ['}'])))
        ⟨[(effectiveName (some ns) key, vc)], [some [(key, vf)]], [(key, ve)]⟩
        (some ns) = .ok (.str vc) ∧
    substitute (.str ('$' :: '{' :: (key ++ ['}'])))
        ⟨[], [some [(key, vf)]], [(key, ve)]⟩ (some ns) = .ok (.str vf) ∧
    substitute (.str ('$' :: '{' :: (key ++ ['}'])))
        ⟨[], [], [(key, ve)]⟩ (some ns) = .ok (.str ve) ∧
    substitute (.str ('$' :: '{' :: (key ++ ['}'])))
        ⟨[], [], []⟩ (some ns) = .error (.varNotFound key) ∧
    substitute (.str ('$' :: '{' :: (key ++ ['}'])))
        ⟨[(effectiveName (some ns) key, vc), (key, vf)], [], []⟩
        (some ns) = .ok (.str vc) := by
  have heff := effectiveName_ne_key ns key hns
  refine ⟨?_, ?_, ?_, ?_, ?_⟩ <;>
    rw [substitute_str_token _ ns key hns hnsw hk hkw] <;>
    simp only [getVariable, lookupTruthy_nil, loadersFind,
      lookupTruthy_cons_ne _ _ _ _ heff, lookupTruthy_cons_self _ _ _ hvc,
      lookupTruthy_cons_self _ _ _ hvf, lookupTruthy_cons_self _ _ _ hve]

/-- C1 (witness): the amended precedence theorem instantiated at
namespace `NS`, variable `X`, and values `config` / `file` / `env`. -/
theorem C1_witness :
    substitute (.str ('$' :: '{' :: ("X".toList ++ ['}'])))
        ⟨[(effectiveName (some "NS".toList) "X".toList, "config".toList)],
          [some [("X".toList, "file".toList)]], [("X".toList, "env".toList)]⟩
        (some "NS".toList) = .ok (.str "config".toList) ∧
    substitute (.str ('$' :: '{' :: ("X".toList ++ ['}'])))
        ⟨[], [some [("X".toList, "file".toList)]], [("X".toList, "env".toList)]⟩
        (some "NS".toList) = .ok (.str "file".toList) ∧
    substitute (.str ('$' :: '{' :: ("X".toList ++ ['}'])))
        ⟨[], [], [("X".toList, "env".toList)]⟩ (some "NS".toList) =
      .ok (.str "env".toList) ∧
    substitute (.str ('$' :: '{' :: ("X".toList ++ ['}'])))
        ⟨[], [], []⟩ (some "NS".toList) = .error (.varNotFound "X".toList) ∧
    substitute (.str ('$' :: '{' :: ("X".toList ++ ['}'])))
        ⟨[(effectiveName (some "NS".toList) "X".toList, "config".toList),
          ("X".toList, "file".toList)], [], []⟩ (some "NS".toList) =
      .ok (.str "config".toList) :=
  C1_default_substitutor_precedence "NS".toList "X".toList
    "config".toList "file".toList "env".toList
    (by decide) (by decide) (by decide) (by decide)
    (by decide) (by decide) (by decide)

/-! ## Tool repository and manual registration

Embeds `InMemConcurrentToolRepository`
(`packages/core/src/implementations/in_mem_concurrent_tool_repository.ts`)
and `UtcpClient.registerManual`
(`packages/core/src/client/utcp_client.ts` lines 68-97 and its newer
revision).  The write mutex serializes repository writes, so the two
sequential `registerManual` calls of the claims are modelled as ordinary
function composition on the repository state.  External behaviour
(variable substitution, protocol discovery, fresh-name generation) is
supplied through an explicit oracle environment. -/

/-- A registered tool: its (namespaced) name, description, and tags.
The owned `tool_call_template` and schema fields play no role in the
claims settled here. -/
structure Tool where
  name : Str
  description : Str
  tags : List Str
  deriving DecidableEq

/-- A UTCP manual: a collection of tools. -/
structure Manual where
  tools : List Tool
  deriving DecidableEq

/-- A call template: its manual `name` (empty models a missing name) and
`call_template_type` discriminator. -/
structure CallTemplate where
  name : Str
  templateType : Str
  deriving DecidableEq

/-- `Map.set` on an association list: replace in place, or append. -/
def setKey {α : Type} : List (Str × α) → Str → α → List (Str × α)
  | [], k, v => [(k, v)]
  | (k', v') :: rest, k, v =>
    if k = k' then (k', v) :: rest else (k', v') :: setKey rest k v

/-- `Map.delete` on an association list. -/
def delKey {α : Type} : List (Str × α) → Str → List (Str × α)
  | [], _ => []
  | (k', v') :: rest, k => if k = k' then rest else (k', v') :: delKey rest k

/-- Number of entries stored under a key. -/
def countKey {α : Type} (m : List (Str × α)) (k : Str) : Nat :=
  (m.filter (fun e => e.1 = k)).length

/-- The three maps of `InMemConcurrentToolRepository`. -/
structure RepoState where
  toolsByName : List (Str × Tool)
  manuals : List (Str × Manual)
  manualCallTemplates : List (Str × CallTemplate)
  deriving DecidableEq

/-- The empty repository. -/
def RepoState.empty : RepoState := ⟨[], [], []⟩

/-- `InMemConcurrentToolRepository.saveManual`: drop the old manual's
tools from the global index, then install the template, the manual, and
its tools. -/
def saveManual (st : RepoState) (tpl : CallTemplate) (manual : Manual) : RepoState :=
  let manualName := tpl.name
  let cleaned :=
    match st.manuals.lookup manualName with
    | some old => old.tools.foldl (fun m t => delKey m t.name) st.toolsByName
    | none => st.toolsByName
  { toolsByName := manual.tools.foldl (fun m t => setKey m t.name t) cleaned,
    manuals := setKey st.manuals manualName manual,
    manualCallTemplates := setKey st.manualCallTemplates manualName tpl }

/-- `InMemConcurrentToolRepository.removeManual`. -/
def removeManual (st : RepoState) (manualName : Str) : Bool × RepoState :=
  match st.manuals.lookup manualName with
  | none => (false, st)
  | some old =>
    (true,
      { toolsByName := old.tools.foldl (fun m t => delKey m t.name) st.toolsByName,
        manuals := delKey st.manuals manualName,
        manualCallTemplates := delKey st.manualCallTemplates manualName })

/-- `manualCallTemplate.name.replace(/[^\w]/g, '_')`: replace every
non-word character with an underscore. -/
def sanitizeName (s : Str) : Str :=
  s.map (fun c => if isWordChar c then c else '_')

/-- The idempotent prefixing step of `registerManual`: prepend
`manualName.` unless the tool name already starts with it. -/
def prefixToolName (manualName toolName : Str) : Str :=
  if (manualName ++ ['.']).isPrefixOf toolName then toolName
  else manualName ++ ['.'] ++ toolName

/-- A protocol's `RegisterManualResult` (without the echoed template):
the discovered manual, the success flag, and accumulated errors. -/
structure RegisterResult where
  manual : Manual
  success : Bool
  errors : List Str
  deriving DecidableEq

/-- Errors thrown synchronously by `UtcpClient.registerManual`. -/
inductive RegError where
  | duplicateManual (name : Str) : RegError
  | substFailed (e : SubstError) : RegError
  | noProtocol (ptype : Str) : RegError
  deriving DecidableEq

/-- Observable effects of a `registerManual` run, in order: the variable
substitution of the template, the protocol dispatch, and the repository
save. -/
inductive RegEvent where
  | substituted : RegEvent
  | dispatched (ptype : Str) : RegEvent
  | saved (name : Str) : RegEvent
  deriving DecidableEq

/-- The external collaborators of `registerManual`: a fresh name for
templates without one (`crypto.randomUUID()`), the variable substitutor,
and the registered communication protocols (their `registerManual`
behaviour as a function of the processed template). -/
structure RegEnv where
  fresh : Str
  subst : CallTemplate → Str → Except SubstError CallTemplate
  protocols : Str → Option (CallTemplate → RegisterResult)

/-- Result, post-state, and effect trace of one `registerManual` call. -/
structure RegOutcome where
  result : Except RegError RegisterResult
  state : RepoState
  events : List RegEvent

/-- The manual name `registerManual` operates under: the template's name
(or a fresh generated one when absent), sanitized. -/
def effectiveManualName (env : RegEnv) (tpl : CallTemplate) : Str :=
  sanitizeName (if tpl.name.isEmpty then env.fresh else tpl.name)

/-- `UtcpClient.registerManual`: default a missing name, sanitize it,
fail on a duplicate, substitute variables namespaced by the manual name,
dispatch to the protocol for the template's type, and on success prefix
every discovered tool name idempotently and save the manual. -/
def registerManual (env : RegEnv) (st : RepoState) (tpl : CallTemplate) : RegOutcome :=
  let name := effectiveManualName env tpl
  match st.manuals.lookup name with
  | some _ => ⟨.error (.duplicateManual name), st, []⟩
  | none =>
    match env.subst { tpl with name := name } name with
    | .error e => ⟨.error (.substFailed e), st, [.substituted]⟩
    | .ok ptpl =>
      match env.protocols ptpl.templateType with
      | none => ⟨.error (.noProtocol ptpl.templateType), st, [.substituted]⟩
      | some proto =>
        let result := proto ptpl
        if result.success then
          let manual' : Manual :=
            ⟨result.manual.tools.map
              (fun t => { t with name := prefixToolName ptpl.name t.name })⟩
          ⟨.ok { result with manual := manual' }, saveManual st ptpl manual',
            [.substituted, .dispatched ptpl.templateType, .saved ptpl.name]⟩
        else
          ⟨.ok result, st, [.substituted, .dispatched ptpl.templateType]⟩

/-- A substitution oracle is name-preserving when it returns the template
name unchanged.  The embedded substitutor satisfies this for every
sanitized name: sanitized names contain no `$`, and substitution leaves
`$`-free strings untouched (`substString_no_dollar`). -/
def NamePreserving (f : CallTemplate → Str → Except SubstError CallTemplate) : Prop :=
  ∀ t n r, f t n = .ok r → r.name = t.name

/-- Substitution is the identity on strings without a dollar sign. -/
theorem substString_no_dollar (cfg : VarConfig) (ns : Option Str) (s : Str)
    (h : '$' ∉ s) : substString cfg ns s = .ok s := by
  induction s with
  | nil => rw [substString]
  | cons c rest ih =>
    have hc : ¬(c = '$') := fun hc => h (hc ▸ List.mem_cons_self c rest)
    have hrest : '$' ∉ rest := fun hm => h (List.mem_cons_of_mem c hm)
    rw [substString.eq_def]
    simp only [if_neg hc, ih hrest]

theorem lookup_setKey_self {α : Type} (m : List (Str × α)) (k : Str) (v : α) :
    (setKey m k v).lookup k = some v := by
  induction m with
  | nil => simp [setKey, List.lookup]
  | cons e rest ih =>
    obtain ⟨k', v'⟩ := e
    by_cases hk : k = k'
    · subst hk
      simp [setKey, List.lookup]
    · have hb : (k == k') = false := beq_eq_false_iff_ne.mpr hk
      simp [setKey, hk, List.lookup, hb, ih]

instance exceptDecEq {ε α : Type} [DecidableEq ε] [DecidableEq α] :
    DecidableEq (Except ε α)
  | .error e1, .error e2 =>
    if h : e1 = e2 then .isTrue (by rw [h])
    else .isFalse (fun hh => h (by cases hh; rfl))
  | .error _, .ok _ => .isFalse (fun hh => Except.noConfusion hh)
  | .ok _, .error _ => .isFalse (fun hh => Except.noConfusion hh)
  | .ok a1, .ok a2 =>
    if h : a1 = a2 then .isTrue (by rw [h])
    else .isFalse (fun hh => h (by cases hh; rfl))

theorem countKey_eq_zero_of_not_mem {α : Type} (m : List (Str × α)) (k : Str)
    (h : k ∉ m.map Prod.fst) : countKey m k = 0 := by
  induction m with
  | nil => rfl
  | cons e rest ih =>
    simp only [List.map_cons, List.mem_cons] at h
    push_neg at h
    have hne : ¬(e.1 = k) := fun hh => h.1 hh.symm
    have hb : decide (e.1 = k) = false := decide_eq_false hne
    simp only [countKey, List.filter_cons, hb, cond_false, if_false, Bool.false_eq_true,
      ite_false]
    exact ih h.2

theorem countKey_setKey_self {α : Type} (m : List (Str × α)) (k : Str) (v : α)
    (h : (m.map Prod.fst).Nodup) : countKey (setKey m k v) k = 1 := by
  induction m with
  | nil => simp [setKey, countKey, List.filter]
  | cons e rest ih =>
    obtain ⟨k', v'⟩ := e
    simp only [List.map_cons, List.nodup_cons] at h
    by_cases hk : k = k'
    · subst hk
      have hz := countKey_eq_zero_of_not_mem rest k h.1
      simp only [countKey] at hz ⊢
      simp [setKey, List.filter_cons, hz]
    · have hne : ¬(k' = k) := fun hh => hk hh.symm
      have hb : decide (k' = k) = false := decide_eq_false hne
      simp only [setKey, if_neg hk, countKey, List.filter_cons, hb, Bool.false_eq_true,
        ite_false]
      exact ih h.2

/-- C2: once a `registerManual` call has succeeded, a second call whose
template name sanitizes to the same manual name fails with the
duplicate-manual error, leaves the repository state exactly as the first
call left it, and performs no variable substitution and no protocol
dispatch (its effect trace is empty) — regardless of how the second
call's oracles would have behaved. -/
theorem C2_duplicate_registration (env1 env2 : RegEnv) (st0 : RepoState)
    (tpl1 tpl2 : CallTemplate) (res : RegisterResult)
    (hpres : NamePreserving env1.subst)
    (h1 : (registerManual env1 st0 tpl1).result = .ok res)
    (hsuc : res.success = true)
    (hsame : effectiveManualName env2 tpl2 = effectiveManualName env1 tpl1) :
    registerManual env2 (registerManual env1 st0 tpl1).state tpl2 =
      ⟨.error (.duplicateManual (effectiveManualName env1 tpl1)),
        (registerManual env1 st0 tpl1).state, []⟩ := by
  cases hm : st0.manuals.lookup (effectiveManualName env1 tpl1) with
  | some m =>
    have ho : registerManual env1 st0 tpl1 =
        ⟨.error (.duplicateManual (effectiveManualName env1 tpl1)), st0, []⟩ := by
      simp [registerManual, hm]
    rw [ho] at h1
    exact absurd h1 (by simp)
  | none =>
    cases hs : env1.subst { tpl1 with name := effectiveManualName env1 tpl1 }
        (effectiveManualName env1 tpl1) with
    | error e =>
      have ho : registerManual env1 st0 tpl1 =
          ⟨.error (.substFailed e), st0, [.substituted]⟩ := by
        simp [registerManual, hm, hs]
      rw [ho] at h1
      exact absurd h1 (by simp)
    | ok ptpl =>
      have hname : ptpl.name = effectiveManualName env1 tpl1 := hpres _ _ _ hs
      cases hp : env1.protocols ptpl.templateType with
      | none =>
        have ho : registerManual env1 st0 tpl1 =
            ⟨.error (.noProtocol ptpl.templateType), st0, [.substituted]⟩ := by
          simp [registerManual, hm, hs, hp]
        rw [ho] at h1
        exact absurd h1 (by simp)
      | some proto =>
        by_cases hsucc : (proto ptpl).success
        · have ho : registerManual env1 st0 tpl1 =
              ⟨.ok { proto ptpl with manual :=
                  ⟨(proto ptpl).manual.tools.map
                    (fun t => { t with name := prefixToolName ptpl.name t.name })⟩ },
                saveManual st0 ptpl
                  ⟨(proto ptpl).manual.tools.map
                    (fun t => { t with name := prefixToolName ptpl.name t.name })⟩,
                [.substituted, .dispatched ptpl.templateType, .saved ptpl.name]⟩ := by
            simp [registerManual, hm, hs, hp, hsucc]
          rw [ho]
          have hlook : (saveManual st0 ptpl
              ⟨(proto ptpl).manual.tools.map
                (fun t => { t with name := prefixToolName ptpl.name t.name })⟩).manuals.lookup
              (effectiveManualName env2 tpl2) =
              some ⟨(proto ptpl).manual.tools.map
                (fun t => { t with name := prefixToolName ptpl.name t.name })⟩ := by
            rw [hsame, ← hname]
            simp [saveManual, lookup_setKey_self]
          rw [registerManual, hlook, hsame]
        · have ho : registerManual env1 st0 tpl1 =
              ⟨.ok (proto ptpl), st0, [.substituted, .dispatched ptpl.templateType]⟩ := by
            simp [registerManual, hm, hs, hp, hsucc]
          rw [ho] at h1
          simp at h1
          rw [← h1] at hsuc
          exact absurd hsuc hsucc

/-- C2 (witness): a concrete two-call run.  The first call registers
manual `m` (one discovered tool); the second call with the same name
fails with the duplicate error, changes nothing, and has an empty effect
trace. -/
theorem C2_witness :
    registerManual
        ⟨[], fun t _ => .ok t, fun _ => some (fun _ => ⟨⟨[⟨"t".toList, [], []⟩]⟩, true, []⟩)⟩
        (registerManual
          ⟨[], fun t _ => .ok t, fun _ => some (fun _ => ⟨⟨[⟨"t".toList, [], []⟩]⟩, true, []⟩)⟩
          RepoState.empty ⟨"m".toList, "http".toList⟩).state
        ⟨"m".toList, "http".toList⟩ =
      ⟨.error (.duplicateManual (effectiveManualName
          ⟨[], fun t _ => .ok t, fun _ => some (fun _ => ⟨⟨[⟨"t".toList, [], []⟩]⟩, true, []⟩)⟩
          ⟨"m".toList, "http".toList⟩)),
        (registerManual
          ⟨[], fun t _ => .ok t, fun _ => some (fun _ => ⟨⟨[⟨"t".toList, [], []⟩]⟩, true, []⟩)⟩
          RepoState.empty ⟨"m".toList, "http".toList⟩).state, []⟩ :=
  C2_duplicate_registration _ _ RepoState.empty
    ⟨"m".toList, "http".toList⟩ ⟨"m".toList, "http".toList⟩
    ⟨⟨[⟨"m".toList ++ ['.'] ++ "t".toList, [], []⟩]⟩, true, []⟩
    (fun _ _ _ h => by cases h; rfl)
    (by decide) (by decide) (by decide)

/-- C3: tool-name prefixing on registration.  For a successful
`registerManual` under sanitized manual name `m` whose protocol
discovery returns a single tool — named either by a local name `local`
(not already carrying the `m.` prefix) or by the already-prefixed name
`m.local` — the repository afterwards stores exactly one tool under the
key `m.local`, the returned manual's tool is named `m.local`, and the
prefixing step is idempotent on all names. -/
theorem C3_tool_name_prefixing (env : RegEnv) (st0 : RepoState) (tpl ptpl : CallTemplate)
    (proto : CallTemplate → RegisterResult)
    (m loc d desc : Str) (tags : List Str) (errs : List Str)
    (hm0 : m = effectiveManualName env tpl)
    (hwf : (st0.toolsByName.map Prod.fst).Nodup)
    (hm : st0.manuals.lookup m = none)
    (hs : env.subst { tpl with name := m } m = .ok ptpl)
    (hname : ptpl.name = m)
    (hp : env.protocols ptpl.templateType = some proto)
    (hd : proto ptpl = ⟨⟨[⟨d, desc, tags⟩]⟩, true, errs⟩)
    (hdchoice : d = loc ∨ d = m ++ ['.'] ++ loc)
    (hloc : (m ++ ['.']).isPrefixOf loc = false) :
    countKey (registerManual env st0 tpl).state.toolsByName (m ++ ['.'] ++ loc) = 1 ∧
    (registerManual env st0 tpl).result =
      .ok ⟨⟨[⟨m ++ ['.'] ++ loc, desc, tags⟩]⟩, true, errs⟩ ∧
    (∀ mn tn : Str, prefixToolName mn (prefixToolName mn tn) = prefixToolName mn tn) := by
  have hidem : ∀ mn tn : Str, prefixToolName mn (prefixToolName mn tn) = prefixToolName mn tn := by
    intro mn tn
    by_cases hpre : (mn ++ ['.']).isPrefixOf tn = true
    · simp [prefixToolName, hpre]
    · have hpre2 : (mn ++ ['.']).isPrefixOf (mn ++ ['.'] ++ tn) = true := by
        rw [List.isPrefixOf_iff_prefix]
        exact ⟨tn, by simp⟩
      simp [prefixToolName, hpre, hpre2]
  have hprefix : prefixToolName m d = m ++ ['.'] ++ loc := by
    cases hdchoice with
    | inl h =>
      subst h
      simp [prefixToolName, hloc]
    | inr h =>
      subst h
      have hpre2 : (m ++ ['.']).isPrefixOf (m ++ ['.'] ++ loc) = true := by
        rw [List.isPrefixOf_iff_prefix]
        exact ⟨loc, by simp⟩
      simp [prefixToolName, hpre2]
  have ho : registerManual env st0 tpl =
      ⟨.ok ⟨⟨[⟨m ++ ['.'] ++ loc, desc, tags⟩]⟩, true, errs⟩,
        saveManual st0 ptpl ⟨[⟨m ++ ['.'] ++ loc, desc, tags⟩]⟩,
        [.substituted, .dispatched ptpl.templateType, .saved ptpl.name]⟩ := by
    simp only [registerManual, ← hm0, hm, hs, hp, hd, hname, hprefix,
      List.map_cons, List.map_nil, if_true]
  rw [ho]
  refine ⟨?_, rfl, hidem⟩
  simp only [saveManual, hname, hm]
  exact countKey_setKey_self st0.toolsByName (m ++ ['.'] ++ loc) _ hwf

/-- C3 (witness): registering manual `m` with one discovered tool named
`t` persists exactly one tool named `m.t`. -/
theorem C3_witness :
    countKey (registerManual
        ⟨[], fun t _ => .ok t, fun _ => some (fun _ => ⟨⟨[⟨"t".toList, [], []⟩]⟩, true, []⟩)⟩
        RepoState.empty ⟨"m".toList, "http".toList⟩).state.toolsByName
        ("m".toList ++ ['.'] ++ "t".toList) = 1 ∧
    (registerManual
        ⟨[], fun t _ => .ok t, fun _ => some (fun _ => ⟨⟨[⟨"t".toList, [], []⟩]⟩, true, []⟩)⟩
        RepoState.empty ⟨"m".toList, "http".toList⟩).result =
      .ok ⟨⟨[⟨"m".toList ++ ['.'] ++ "t".toList, [], []⟩]⟩, true, []⟩ ∧
    (∀ mn tn : Str, prefixToolName mn (prefixToolName mn tn) = prefixToolName mn tn) :=
  C3_tool_name_prefixing
    ⟨[], fun t _ => .ok t, fun _ => some (fun _ => ⟨⟨[⟨"t".toList, [], []⟩]⟩, true, []⟩)⟩
    RepoState.empty ⟨"m".toList, "http".toList⟩ ⟨"m".toList, "http".toList⟩
    (fun _ => ⟨⟨[⟨"t".toList, [], []⟩]⟩, true, []⟩)
    "m".toList "t".toList "t".toList [] [] []
    (by decide) (by simp [RepoState.empty]) rfl rfl rfl rfl rfl
    (Or.inl rfl) (by decide)

/-! ## MCP session lifecycle

Embeds `McpCommunicationProtocol._withSession`, `_getOrCreateSession` and
`_cleanupSession` (`packages/mcp/src/mcp_communication_protocol.ts`,
lines 58-159).  Sessions are modelled by generation numbers: `nextGen`
counts the clients ever connected, so a rebuilt session is observably a
new client.  The raced operation (including its 15-second timeout
rejection) is an oracle from the session to a result or an error
message. -/

/-- The session cache of one `McpCommunicationProtocol` instance:
`sessionKey -> client`, plus the generation counter for fresh clients. -/
structure McpState where
  sessions : List (Str × Nat)
  nextGen : Nat
  deriving DecidableEq

/-- `_getOrCreateSession`: reuse the cached session for
`serverName:transport`, else connect a fresh client and cache it. -/
def getOrCreateSession (st : McpState) (key : Str) : Nat × McpState :=
  match st.sessions.lookup key with
  | some s => (s, st)
  | none => (st.nextGen, ⟨setKey st.sessions key st.nextGen, st.nextGen + 1⟩)

/-- `_cleanupSession`: close and evict the cached session, if any. -/
def cleanupSession (st : McpState) (key : Str) : McpState :=
  ⟨delKey st.sessions key, st.nextGen⟩

/-- ASCII lowercasing (`message.toLowerCase()`). -/
def toLowerStr (s : Str) : Str := s.map Char.toLower

/-- `haystack.includes(needle)`: substring containment. -/
def strContains (hay needle : Str) : Bool :=
  (List.range (hay.length + 1)).any (fun i => needle.isPrefixOf (hay.drop i))

/-- The connection-problem classifier of `_withSession`: the lowercased
message contains `closed`, `disconnected`, `econnreset` or `etimedout`. -/
def isConnectionError (msg : Str) : Bool :=
  let m := toLowerStr msg
  strContains m "closed".toList || strContains m "disconnected".toList ||
    strContains m "econnreset".toList || strContains m "etimedout".toList

/-- Result of a `_withSession` run: the operation's outcome, the session
cache afterwards, and how many times the session was torn down and
rebuilt. -/
structure WithSessionOut (α : Type) where
  result : Except Str α
  state : McpState
  rebuilds : Nat

/-- `_withSession`: run the operation against the (possibly cached)
session; if it fails with a connection-problem error, tear the session
down, rebuild it, and retry the operation exactly once, returning the
retry's outcome as is; any other error propagates. -/
def withSession {α : Type} (st : McpState) (key : Str) (op : Nat → Except Str α) :
    WithSessionOut α :=
  let p1 := getOrCreateSession st key
  match op p1.1 with
  | .ok v => ⟨.ok v, p1.2, 0⟩
  | .error e =>
    if isConnectionError e then
      let st2 := cleanupSession p1.2 key
      let p2 := getOrCreateSession st2 key
      ⟨op p2.1, p2.2, 1⟩
    else ⟨.error e, p1.2, 0⟩

/-- Well-formed session cache: unique keys, and every cached client was
created by a past generation. -/
def McpWF (st : McpState) : Prop :=
  (st.sessions.map Prod.fst).Nodup ∧ ∀ p ∈ st.sessions, p.2 < st.nextGen

theorem lookup_eq_none_of_not_mem {α : Type} (m : List (Str × α)) (k : Str)
    (h : k ∉ m.map Prod.fst) : m.lookup k = none := by
  induction m with
  | nil => rfl
  | cons e rest ih =>
    simp only [List.map_cons, List.mem_cons] at h
    push_neg at h
    have hb : (k == e.1) = false := beq_eq_false_iff_ne.mpr h.1
    obtain ⟨k', v'⟩ := e
    simp only [List.lookup]
    simp only at hb
    rw [hb]
    exact ih h.2

theorem delKey_sublist {α : Type} (m : List (Str × α)) (k : Str) :
    (delKey m k).Sublist m := by
  induction m with
  | nil => simp [delKey]
  | cons e rest ih =>
    obtain ⟨k', v'⟩ := e
    by_cases hk : k = k'
    · simp only [delKey, if_pos hk]
      exact (List.sublist_cons_self _ _)
    · simp only [delKey, if_neg hk]
      exact ih.cons₂ _

theorem lookup_delKey_self {α : Type} (m : List (Str × α)) (k : Str)
    (h : (m.map Prod.fst).Nodup) : (delKey m k).lookup k = none := by
  induction m with
  | nil => rfl
  | cons e rest ih =>
    obtain ⟨k', v'⟩ := e
    simp only [List.map_cons, List.nodup_cons] at h
    by_cases hk : k = k'
    · subst hk
      simp only [delKey, if_pos rfl]
      exact lookup_eq_none_of_not_mem rest k h.1
    · have hb : (k == k') = false := beq_eq_false_iff_ne.mpr hk
      simp only [delKey, if_neg hk, List.lookup]
      rw [hb]
      exact ih h.2

theorem lookup_mem {α : Type} (m : List (Str × α)) (k : Str) (v : α)
    (h : m.lookup k = some v) : (k, v) ∈ m := by
  induction m with
  | nil => simp [List.lookup] at h
  | cons e rest ih =>
    obtain ⟨k', v'⟩ := e
    simp only [List.lookup] at h
    cases hb : (k == k') with
    | true =>
      rw [hb] at h
      cases h
      have : k = k' := by exact_mod_cast beq_iff_eq.mp hb
      subst this
      exact List.mem_cons_self _ _
    | false =>
      rw [hb] at h
      exact List.mem_cons_of_mem _ (ih h)

theorem mem_setKey {α : Type} (m : List (Str × α)) (k a : Str) (v b : α)
    (hab : (a, b) ∈ setKey m k v) : (a, b) ∈ m ∨ a = k := by
  induction m with
  | nil =>
    simp [setKey] at hab
    exact Or.inr hab.1
  | cons f rf ihf =>
    obtain ⟨kf, vf⟩ := f
    by_cases hkf : k = kf
    · subst hkf
      rw [show setKey ((k, vf) :: rf) k v = (k, v) :: rf from by
        simp only [setKey, if_pos rfl, if_true]] at hab
      rcases List.mem_cons.mp hab with h1 | h1
      · exact Or.inr (congrArg Prod.fst h1)
      · exact Or.inl (List.mem_cons_of_mem _ h1)
    · rw [show setKey ((kf, vf) :: rf) k v = (kf, vf) :: setKey rf k v from by
        simp only [setKey, if_neg hkf]] at hab
      rcases List.mem_cons.mp hab with h1 | h1
      · exact Or.inl (h1 ▸ List.mem_cons_self _ _)
      · rcases ihf h1 with h2 | h2
        · exact Or.inl (List.mem_cons_of_mem _ h2)
        · exact Or.inr h2

theorem nodup_keys_setKey {α : Type} (m : List (Str × α)) (k : Str) (v : α)
    (h : (m.map Prod.fst).Nodup) : ((setKey m k v).map Prod.fst).Nodup := by
  induction m with
  | nil => simp [setKey]
  | cons e rest ih =>
    obtain ⟨k', v'⟩ := e
    simp only [List.map_cons, List.nodup_cons] at h
    by_cases hk : k = k'
    · subst hk
      rw [show setKey ((k, v') :: rest) k v = (k, v) :: rest from by
        simp only [setKey, if_pos rfl, if_true]]
      simp only [List.map_cons, List.nodup_cons]
      exact ⟨h.1, h.2⟩
    · rw [show setKey ((k', v') :: rest) k v = (k', v') :: setKey rest k v from by
        simp only [setKey, if_neg hk]]
      simp only [List.map_cons, List.nodup_cons]
      refine ⟨?_, ih h.2⟩
      intro hmem
      rcases List.mem_map.mp hmem with ⟨⟨a, b⟩, hab, hfst⟩
      rcases mem_setKey rest k a v b hab with hmem2 | hak
      · exact h.1 (hfst ▸ List.mem_map.mpr ⟨(a, b), hmem2, rfl⟩)
      · exact hk (hfst ▸ hak ▸ rfl)

/-- C4: the MCP failure/recovery policy of `_withSession`.  Per
operation, (1) the session is never rebuilt more than once; (2) a
successful operation performs no rebuild; (3) an error without a
connection indicator propagates to the caller with no rebuild; (4) an
error whose message contains a connection indicator causes the session
for the key to be torn down and rebuilt exactly once with a genuinely
new client (cached under the same key), and the single retried
operation's outcome — success or failure — is returned as is. -/
theorem C4_session_retry {α : Type} (st : McpState) (key : Str) (op : Nat → Except Str α)
    (c1 : Nat) (st1 : McpState) (hwf : McpWF st)
    (hget : getOrCreateSession st key = (c1, st1)) :
    (withSession st key op).rebuilds ≤ 1 ∧
    (∀ v, op c1 = .ok v → withSession st key op = ⟨.ok v, st1, 0⟩) ∧
    (∀ e, op c1 = .error e → isConnectionError e = false →
      withSession st key op = ⟨.error e, st1, 0⟩) ∧
    (∀ e, op c1 = .error e → isConnectionError e = true →
      ∃ c2 st2, getOrCreateSession (cleanupSession st1 key) key = (c2, st2) ∧
        c2 ≠ c1 ∧ withSession st key op = ⟨op c2, st2, 1⟩ ∧
        st2.sessions.lookup key = some c2) := by
  have hws : withSession st key op =
      match op c1 with
      | .ok v => ⟨.ok v, st1, 0⟩
      | .error e =>
        if isConnectionError e then
          ⟨op (getOrCreateSession (cleanupSession st1 key) key).1,
            (getOrCreateSession (cleanupSession st1 key) key).2, 1⟩
        else ⟨.error e, st1, 0⟩ := by
    simp only [withSession, hget]
  have hfresh : ∃ c2 st2, getOrCreateSession (cleanupSession st1 key) key = (c2, st2) ∧
      c2 ≠ c1 ∧ st2.sessions.lookup key = some c2 := by
    cases hlk : st.sessions.lookup key with
    | some s =>
      have hg : getOrCreateSession st key = (s, st) := by
        simp [getOrCreateSession, hlk]
      rw [hg] at hget
      cases hget
      have hdel : (delKey st.sessions key).lookup key = none :=
        lookup_delKey_self st.sessions key hwf.1
      refine ⟨st.nextGen,
        ⟨setKey (delKey st.sessions key) key st.nextGen, st.nextGen + 1⟩,
        by simp [getOrCreateSession, hdel, cleanupSession], ?_, ?_⟩
      · have hmem := lookup_mem st.sessions key c1 hlk
        have := hwf.2 _ hmem
        omega
      · simp [lookup_setKey_self]
    | none =>
      have hg : getOrCreateSession st key =
          (st.nextGen, ⟨setKey st.sessions key st.nextGen, st.nextGen + 1⟩) := by
        simp [getOrCreateSession, hlk]
      rw [hg] at hget
      cases hget
      have hnodup := nodup_keys_setKey st.sessions key st.nextGen hwf.1
      have hdel : (delKey (setKey st.sessions key st.nextGen) key).lookup key = none :=
        lookup_delKey_self _ key hnodup
      refine ⟨st.nextGen + 1,
        ⟨setKey (delKey (setKey st.sessions key st.nextGen) key) key (st.nextGen + 1),
          st.nextGen + 2⟩,
        by simp [getOrCreateSession, cleanupSession, hdel], ?_, ?_⟩
      · omega
      · simp [lookup_setKey_self]
  refine ⟨?_, ?_, ?_, ?_⟩
  · rw [hws]
    cases op c1 with
    | ok v => simp
    | error e =>
      by_cases hc : isConnectionError e <;> simp [hc]
  · intro v hv
    rw [hws, hv]
  · intro e he hc
    rw [hws, he]
    simp [hc]
  · intro e he hc
    obtain ⟨c2, st2, hg2, hne, hlook⟩ := hfresh
    refine ⟨c2, st2, hg2, hne, ?_, hlook⟩
    rw [hws, he]
    simp [hc, hg2]

/-- C4 (witness): a concrete run — the cached session 0 fails with
`Connection closed`, is rebuilt once as session 1, and the retried
operation's success is returned. -/
theorem C4_witness :
    (withSession ⟨[("s:http".toList, 0)], 1⟩ "s:http".toList
        (fun n => if n = 0 then .error "Connection closed".toList else .ok 42)).rebuilds ≤ 1 ∧
    (∀ v, (if (0 : Nat) = 0 then Except.error "Connection closed".toList else Except.ok 42) = .ok v →
      withSession ⟨[("s:http".toList, 0)], 1⟩ "s:http".toList
        (fun n => if n = 0 then .error "Connection closed".toList else .ok 42) =
        ⟨.ok v, ⟨[("s:http".toList, 0)], 1⟩, 0⟩) ∧
    (∀ e, (if (0 : Nat) = 0 then Except.error "Connection closed".toList else Except.ok 42) = .error e →
      isConnectionError e = false →
      withSession ⟨[("s:http".toList, 0)], 1⟩ "s:http".toList
        (fun n => if n = 0 then .error "Connection closed".toList else .ok 42) =
        ⟨.error e, ⟨[("s:http".toList, 0)], 1⟩, 0⟩) ∧
    (∀ e, (if (0 : Nat) = 0 then Except.error "Connection closed".toList else Except.ok 42) = .error e →
      isConnectionError e = true →
      ∃ c2 st2, getOrCreateSession (cleanupSession ⟨[("s:http".toList, 0)], 1⟩ "s:http".toList)
          "s:http".toList = (c2, st2) ∧
        c2 ≠ 0 ∧
        withSession ⟨[("s:http".toList, 0)], 1⟩ "s:http".toList
          (fun n => if n = 0 then .error "Connection closed".toList else .ok 42) =
          ⟨if c2 = 0 then .error "Connection closed".toList else .ok 42, st2, 1⟩ ∧
        st2.sessions.lookup "s:http".toList = some c2) :=
  C4_session_retry ⟨[("s:http".toList, 0)], 1⟩ "s:http".toList
    (fun n => if n = 0 then .error "Connection closed".toList else .ok 42) 0
    ⟨[("s:http".toList, 0)], 1⟩
    ⟨by decide, by decide⟩ (by decide)

/-! ## MCP result unwrapping

Embeds `McpCommunicationProtocol._processMcpToolResult` and
`_parseTextContent` (`packages/mcp/src/mcp_communication_protocol.ts`,
lines 264-292), together with models of the host primitives they call:
`JSON.parse` (ECMA-404 grammar; numbers kept as exact rationals) and
`Number(string)` (ECMAScript string-to-number conversion; `none` encodes
a `NaN` or infinite outcome, which the code's
`!isNaN(num) && isFinite(num)` guard rejects; values at least `2^1024`
in magnitude overflow to infinity). -/

/-- JSON insignificant whitespace: space, tab, line feed, carriage return. -/
def jsonWs (c : Char) : Bool := c = ' ' || c = '\t' || c = '\n' || c = '\r'

/-- Skip JSON whitespace. -/
def skipWs (s : Str) : Str := s.dropWhile jsonWs

/-- Hexadecimal digit test. -/
def isHexDigitChar (c : Char) : Bool :=
  c.isDigit || ('a' ≤ c && c ≤ 'f') || ('A' ≤ c && c ≤ 'F')

/-- Value of a hexadecimal digit. -/
def hexVal (c : Char) : Nat :=
  if c.isDigit then c.toNat - 48
  else if 'a' ≤ c && c ≤ 'f' then c.toNat - 87
  else c.toNat - 55

/-- Single-character JSON string escapes. -/
def escChar (c : Char) : Option Char :=
  if c = '"' then some '"'
  else if c = '\\' then some '\\'
  else if c = '/' then some '/'
  else if c = 'b' then some '\x08'
  else if c = 'f' then some '\x0C'
  else if c = 'n' then some '\n'
  else if c = 'r' then some '\r'
  else if c = 't' then some '\t'
  else none

/-- Parse the body of a JSON string after the opening quote, returning
the decoded characters and the remaining input after the closing quote.
(`\uXXXX` escapes decode to the code unit; lone surrogates degrade to a
default character, a deviation from UTF-16 semantics that no claim
depends on.) -/
def parseStringBody : Str → Option (Str × Str)
  | [] => none
  | c :: rest =>
    if c = '"' then some ([], rest)
    else if c = '\\' then
      match rest with
      | [] => none
      | e :: rest2 =>
        if e = 'u' then
          match rest2 with
          | a :: b :: c2 :: d :: rest3 =>
            if isHexDigitChar a && isHexDigitChar b && isHexDigitChar c2 && isHexDigitChar d then
              match parseStringBody rest3 with
              | some (tail, rem) =>
                some (Char.ofNat (hexVal a * 4096 + hexVal b * 256 + hexVal c2 * 16 + hexVal d) :: tail, rem)
              | none => none
            else none
          | _ => none
        else
          match escChar e with
          | some ec =>
            match parseStringBody rest2 with
            | some (tail, rem) => some (ec :: tail, rem)
            | none => none
          | none => none
    else if c.toNat < 32 then none
    else
      match parseStringBody rest with
      | some (tail, rem) => some (c :: tail, rem)
      | none => none
termination_by s => s.length
decreasing_by all_goals simp_arith [*]

/-- Numeric value of a digit string. -/
def digitsVal (ds : Str) : Nat := ds.foldl (fun n c => n * 10 + (c.toNat - 48)) 0

/-- The fractional-part value of a digit string. -/
def fracQ (fds : Str) : ℚ := (digitsVal fds : ℚ) / ((10 : ℚ) ^ fds.length)

/-- Ten to an integer power. -/
def tenPow (e : ℤ) : ℚ := (10 : ℚ) ^ e

/-- An optional JSON exponent part, which must consume the rest of the
number token.  Returns the signed exponent. -/
def parseExpPart : Str → Option (ℤ × Str)
  | [] => some (0, [])
  | e :: rest =>
    if e = 'e' || e = 'E' then
      let (sgn, r) :=
        match rest with
        | '+' :: r2 => ((1 : ℤ), r2)
        | '-' :: r2 => ((-1 : ℤ), r2)
        | _ => ((1 : ℤ), rest)
      let ds := r.takeWhile Char.isDigit
      if ds.isEmpty then none
      else some (sgn * (digitsVal ds : ℤ), r.dropWhile Char.isDigit)
    else some (0, e :: rest)

/-- Parse a JSON number token (`-? (0 | [1-9][0-9]*) (. [0-9]+)?
([eE][+-]?[0-9]+)?`) from the head of the input. -/
def parseNumber (s : Str) : Option (ℚ × Str) :=
  let (sgn, s1) :=
    match s with
    | '-' :: r => ((-1 : ℚ), r)
    | _ => ((1 : ℚ), s)
  let intPart : Option (Nat × Str) :=
    match s1 with
    | '0' :: r => some (0, r)
    | c :: _ =>
      if c.isDigit && c ≠ '0' then
        some (digitsVal (s1.takeWhile Char.isDigit), s1.dropWhile Char.isDigit)
      else none
    | [] => none
  match intPart with
  | none => none
  | some (i, r1) =>
    let fracPart : Option (ℚ × Str) :=
      match r1 with
      | '.' :: r2 =>
        let fds := r2.takeWhile Char.isDigit
        if fds.isEmpty then none
        else some ((i : ℚ) + fracQ fds, r2.dropWhile Char.isDigit)
      | _ => some ((i : ℚ), r1)
    match fracPart with
    | none => none
    | some (q, r3) =>
      match r3 with
      | e :: r4 =>
        if e = 'e' || e = 'E' then
          match parseExpPart (e :: r4) with
          | some (ex, r5) => some (sgn * q * tenPow ex, r5)
          | none => none
        else some (sgn * q, e :: r4)
      | [] => some (sgn * q, [])

mutual

/-- Parse one JSON value (fuel-indexed recursive-descent over the
ECMA-404 grammar used by `JSON.parse`). -/
def parseVal : Nat → Str → Option (JSValue × Str)
  | 0, _ => none
  | Nat.succ fuel, s =>
    match skipWs s with
    | [] => none
    | c :: rest =>
      if c = 'n' then
        if "ull".toList.isPrefixOf rest then some (.null, rest.drop 3) else none
      else if c = 't' then
        if "rue".toList.isPrefixOf rest then some (.bool true, rest.drop 3) else none
      else if c = 'f' then
        if "alse".toList.isPrefixOf rest then some (.bool false, rest.drop 4) else none
      else if c = '"' then
        match parseStringBody rest with
        | some (str, rem) => some (.str str, rem)
        | none => none
      else if c = '[' then
        match skipWs rest with
        | ']' :: rem => some (.arr [], rem)
        | _ => parseElems fuel rest []
      else if c = '{' then
        match skipWs rest with
        | '}' :: rem => some (.obj [], rem)
        | _ => parseFields fuel rest []
      else
        match parseNumber (c :: rest) with
        | some (q, rem) => some (.num q, rem)
        | none => none

/-- Parse the comma-separated elements of a non-empty JSON array. -/
def parseElems : Nat → Str → List JSValue → Option (JSValue × Str)
  | 0, _, _ => none
  | Nat.succ fuel, s, acc =>
    match parseVal fuel s with
    | none => none
    | some (v, rem) =>
      match skipWs rem with
      | ',' :: rem2 => parseElems fuel rem2 (acc ++ [v])
      | ']' :: rem2 => some (.arr (acc ++ [v]), rem2)
      | _ => none

/-- Parse the members of a non-empty JSON object.  A duplicated key
overwrites the earlier value in place, as `JSON.parse` does. -/
def parseFields : Nat → Str → List (Str × JSValue) → Option (JSValue × Str)
  | 0, _, _ => none
  | Nat.succ fuel, s, acc =>
    match skipWs s with
    | '"' :: rest =>
      match parseStringBody rest with
      | none => none
      | some (k, rem) =>
        match skipWs rem with
        | ':' :: rem2 =>
          match parseVal fuel rem2 with
          | none => none
          | some (v, rem3) =>
            match skipWs rem3 with
            | ',' :: rem4 => parseFields fuel rem4 (setKey acc k v)
            | '}' :: rem4 => some (.obj (setKey acc k v), rem4)
            | _ => none
        | _ => none
    | _ => none

end

/-- `JSON.parse`: parse one value and require only whitespace after it. -/
def jsonParse (s : Str) : Option JSValue :=
  match parseVal (s.length + 1) s with
  | some (v, rem) => if (skipWs rem).isEmpty then some v else none
  | none => none

/-- ECMAScript `StrWhiteSpace` characters trimmed by `Number(string)`. -/
def jsStrWs (c : Char) : Bool :=
  c = ' ' || c = '\t' || c = '\n' || c = '\r' || c = '\x0b' || c = '\x0c' ||
    c = '\u00A0' || c = '\uFEFF' || c = '\u2028' || c = '\u2029'

/-- Trim `StrWhiteSpace` from both ends. -/
def trimJs (s : Str) : Str :=
  ((s.dropWhile jsStrWs).reverse.dropWhile jsStrWs).reverse

/-- Keep only values a double can represent finitely (magnitude below
`2^1024`, stated on numerator and denominator so it computes by machine
arithmetic); larger values overflow to infinity and fail the code's
`isFinite` guard. -/
def finiteGuard (q : ℚ) : Option ℚ :=
  if q.num.natAbs < 2 ^ 1024 * q.den then some q else none

/-- Digits of a non-decimal radix (2, 8 or 16), or `none` on an invalid
digit. -/
def radixDigitVal (r : Nat) (c : Char) : Option Nat :=
  let v :=
    if c.isDigit then some (c.toNat - 48)
    else if 'a' ≤ c && c ≤ 'f' then some (c.toNat - 87)
    else if 'A' ≤ c && c ≤ 'F' then some (c.toNat - 55)
    else none
  match v with
  | some n => if n < r then some n else none
  | none => none

/-- Value of a non-empty digit sequence in the given radix; `none` if
empty or containing an invalid digit. -/
def parseRadixDigits (r : Nat) (s : Str) : Option Nat :=
  match s with
  | [] => none
  | _ =>
    s.foldl
      (fun acc c =>
        match acc, radixDigitVal r c with
        | some n, some d => some (n * r + d)
        | _, _ => none)
      (some 0)

/-- The exponent tail of a `StrDecimalLiteral`: empty input means no
exponent; otherwise `[eE][+-]?digits` consuming the whole rest. -/
def strExpTail : Str → Option ℤ
  | [] => some 0
  | e :: rest =>
    if e = 'e' || e = 'E' then
      let (sgn, r) :=
        match rest with
        | '+' :: r2 => ((1 : ℤ), r2)
        | '-' :: r2 => ((-1 : ℤ), r2)
        | _ => ((1 : ℤ), rest)
      let ds := r.takeWhile Char.isDigit
      if ds.isEmpty then none
      else if (r.dropWhile Char.isDigit).isEmpty then some (sgn * (digitsVal ds : ℤ))
      else none
    else none

/-- A signed `StrDecimalLiteral` (decimal digits with optional fraction
and exponent, `.digits` forms allowed, or a signed `Infinity`). -/
def strDecimal (t : Str) : Option ℚ :=
  let (sgn, t1) :=
    match t with
    | '+' :: r => ((1 : ℚ), r)
    | '-' :: r => ((-1 : ℚ), r)
    | _ => ((1 : ℚ), t)
  if t1 = "Infinity".toList then none
  else
    let ids := t1.takeWhile Char.isDigit
    let r1 := t1.dropWhile Char.isDigit
    match r1 with
    | '.' :: r2 =>
      let fds := r2.takeWhile Char.isDigit
      let r3 := r2.dropWhile Char.isDigit
      if ids.isEmpty && fds.isEmpty then none
      else
        match strExpTail r3 with
        | some e => finiteGuard (sgn * ((digitsVal ids : ℚ) + fracQ fds) * tenPow e)
        | none => none
    | _ =>
      if ids.isEmpty then none
      else
        match strExpTail r1 with
        | some e => finiteGuard (sgn * (digitsVal ids : ℚ) * tenPow e)
        | none => none

/-- ECMAScript `Number(string)` restricted to outcomes accepted by the
code's `!isNaN(num) && isFinite(num)` guard: `some q` is a finite
number, `none` is `NaN` or an infinity.  The empty (or all-whitespace)
string converts to `0`. -/
def toNumber (s : Str) : Option ℚ :=
  let t := trimJs s
  match t with
  | [] => some 0
  | '0' :: x :: rest =>
    if x = 'x' || x = 'X' then
      match parseRadixDigits 16 rest with
      | some n => finiteGuard (n : ℚ)
      | none => none
    else if x = 'o' || x = 'O' then
      match parseRadixDigits 8 rest with
      | some n => finiteGuard (n : ℚ)
      | none => none
    else if x = 'b' || x = 'B' then
      match parseRadixDigits 2 rest with
      | some n => finiteGuard (n : ℚ)
      | none => none
    else strDecimal t
  | _ => strDecimal t

/-- `McpCommunicationProtocol._parseTextContent`: try `JSON.parse`; on
failure try `Number(text)` and return it if finite; otherwise return the
raw string. -/
def parseTextContent (text : Str) : JSValue :=
  match jsonParse text with
  | some v => v
  | none =>
    match toNumber text with
    | some q => .num q
    | none => .str text

/-- Processing of one `content` item: a text-typed item whose `text` is
a string goes through the best-effort parse; anything else passes
through unchanged. -/
def processContentItem (item : JSValue) : JSValue :=
  match item with
  | .obj f =>
    match f.lookup "type".toList, f.lookup "text".toList with
    | some (.str ty), some (.str tx) =>
      if ty = "text".toList then parseTextContent tx else item
    | _, _ => item
  | _ => item

/-- `McpCommunicationProtocol._processMcpToolResult`: prefer a
`structured_output` field; otherwise map an array-valued `content`
through the per-item parse and collapse a singleton result; anything
else is returned unchanged. -/
def processMcpToolResult (result : JSValue) : JSValue :=
  match result with
  | .obj fields =>
    match fields.lookup "structured_output".toList with
    | some v => v
    | none =>
      match fields.lookup "content".toList with
      | some (.arr items) =>
        match items.map processContentItem with
        | [single] => single
        | ps => .arr ps
      | _ => result
  | _ => result

theorem dropWhile_all {p q : Char → Bool} (s : Str) (h : s.all p = true) :
    (s.dropWhile q).all p = true := by
  induction s with
  | nil => simp [List.dropWhile]
  | cons c rest ih =>
    simp only [List.all_cons, Bool.and_eq_true] at h
    by_cases hq : q c
    · simp only [List.dropWhile, hq]
      exact ih h.2
    · simp only [List.dropWhile, hq]
      simp [h.1, List.all_eq_true]
      intro x hx
      have := List.all_eq_true.mp h.2 x hx
      simpa using this

theorem dropWhile_head_false {p : Char → Bool} (s : Str) (c : Char) (rest : Str)
    (h : s.dropWhile p = c :: rest) : p c = false := by
  induction s with
  | nil => simp [List.dropWhile] at h
  | cons d tail ih =>
    by_cases hd : p d
    · simp only [List.dropWhile, hd] at h
      exact ih h
    · simp only [List.dropWhile, hd] at h
      cases h
      simpa using hd

theorem jsonParse_ws (s : Str) (h : s.all jsStrWs = true) : jsonParse s = none := by
  have hval : parseVal (s.length + 1) s = none := by
    rw [parseVal]
    cases hss : skipWs s with
    | nil => rfl
    | cons c rest =>
      have hc : jsStrWs c = true := by
        have hall : (skipWs s).all jsStrWs = true := dropWhile_all s h
        rw [hss] at hall
        simp only [List.all_cons, Bool.and_eq_true] at hall
        exact hall.1
      have hnj : jsonWs c = false := dropWhile_head_false s c rest hss
      have hcases : c = '\x0b' ∨ c = '\x0c' ∨ c = ' ' ∨ c = '﻿' ∨
          c = ' ' ∨ c = ' ' := by
        simp only [jsStrWs, Bool.or_eq_true, decide_eq_true_eq] at hc
        simp [jsonWs] at hnj
        tauto
      rcases hcases with hcv | hcv | hcv | hcv | hcv | hcv <;> subst hcv <;>
        simp [parseNumber]
  simp [jsonParse, hval]

theorem trimJs_of_all_ws (s : Str) (h : s.all jsStrWs = true) : trimJs s = [] := by
  have hdrop : s.dropWhile jsStrWs = [] := by
    induction s with
    | nil => rfl
    | cons c rest ih =>
      simp only [List.all_cons, Bool.and_eq_true] at h
      simp [List.dropWhile, h.1, ih h.2]
  simp [trimJs, hdrop]

theorem toNumber_ws (s : Str) (h : s.all jsStrWs = true) : toNumber s = some 0 := by
  rw [toNumber, trimJs_of_all_ws s h]

/-- C10: in MCP result unwrapping, an empty or whitespace-only text item
does not come back as the original string: `JSON.parse` rejects it,
`Number` converts it to `0`, and the item becomes the number `0`.  More
generally, any text `JSON.parse` rejects whose numeric conversion is
finite is returned as that number. -/
theorem C10_whitespace_text_to_zero :
    parseTextContent [] = .num 0 ∧
    (∀ s : Str, s.all jsStrWs = true → parseTextContent s = .num 0) ∧
    (∀ (s : Str) (q : ℚ), jsonParse s = none → toNumber s = some q →
      parseTextContent s = .num q) := by
  have hgen : ∀ (s : Str) (q : ℚ), jsonParse s = none → toNumber s = some q →
      parseTextContent s = .num q := by
    intro s q hj hn
    rw [parseTextContent, hj, hn]
  refine ⟨?_, ?_, hgen⟩
  · rfl
  · intro s hws
    exact hgen s 0 (jsonParse_ws s hws) (toNumber_ws s hws)

/-- C10 (witness): the whitespace-only string `" \t "` unwraps to the
number `0`, and the non-JSON text `0x1A` unwraps to the number `26`. -/
theorem C10_witness :
    parseTextContent " \t ".toList = .num 0 ∧
    parseTextContent "0x1A".toList = .num 26 :=
  ⟨(C10_whitespace_text_to_zero.2.1 " \t ".toList (by decide)),
    (C10_whitespace_text_to_zero.2.2 "0x1A".toList 26 rfl rfl)⟩

/-- C5: MCP tool-call result unwrapping.  (1) A `structured_output`
field's value is preferred.  (2) Otherwise, an array-valued `content`
field is mapped item-wise — a text-typed item with string text goes
through the best-effort parse (`JSON.parse`, else finite `Number`, else
the raw string), every other item passes through unchanged — and a
single-element mapped array is collapsed to its lone element.  (3) Any
other result is returned unchanged. -/
theorem C5_mcp_result_unwrapping :
    (∀ (fields : List (Str × JSValue)) (v : JSValue),
      fields.lookup "structured_output".toList = some v →
      processMcpToolResult (.obj fields) = v) ∧
    (∀ (fields : List (Str × JSValue)) (it : JSValue),
      fields.lookup "structured_output".toList = none →
      fields.lookup "content".toList = some (.arr [it]) →
      processMcpToolResult (.obj fields) = processContentItem it) ∧
    (∀ (fields : List (Str × JSValue)) (items : List JSValue),
      fields.lookup "structured_output".toList = none →
      fields.lookup "content".toList = some (.arr items) →
      items.length ≠ 1 →
      processMcpToolResult (.obj fields) = .arr (items.map processContentItem)) ∧
    (∀ (f : List (Str × JSValue)) (tx : Str),
      f.lookup "type".toList = some (.str "text".toList) →
      f.lookup "text".toList = some (.str tx) →
      processContentItem (.obj f) = parseTextContent tx) ∧
    (∀ (f : List (Str × JSValue)) (ty : JSValue),
      f.lookup "type".toList = some ty →
      (∀ s : Str, ty ≠ .str s) →
      processContentItem (.obj f) = .obj f) ∧
    (∀ item : JSValue, (∀ f, item ≠ .obj f) → processContentItem item = item) ∧
    (∀ (fields : List (Str × JSValue)),
      fields.lookup "structured_output".toList = none →
      (∀ items, fields.lookup "content".toList ≠ some (.arr items)) →
      processMcpToolResult (.obj fields) = .obj fields) ∧
    (∀ r : JSValue, (∀ f, r ≠ .obj f) → processMcpToolResult r = r) ∧
    (∀ (tx : Str) (v : JSValue), jsonParse tx = some v → parseTextContent tx = v) ∧
    (∀ (tx : Str) (q : ℚ), jsonParse tx = none → toNumber tx = some q →
      parseTextContent tx = .num q) ∧
    (∀ tx : Str, jsonParse tx = none → toNumber tx = none →
      parseTextContent tx = .str tx) := by
  refine ⟨?_, ?_, ?_, ?_, ?_, ?_, ?_, ?_, ?_, ?_, ?_⟩
  · intro fields v hso
    rw [processMcpToolResult, hso]
  · intro fields it hso hct
    rw [processMcpToolResult, hso, hct]
    simp
  · intro fields items hso hct hlen
    rw [processMcpToolResult, hso, hct]
    match items with
    | [] => rfl
    | [a] => exact absurd rfl hlen
    | a :: b :: rest => rfl
  · intro f tx hty htx
    rw [processContentItem, hty, htx]
    simp
  · intro f ty hty hns
    rw [processContentItem, hty]
    match ty, hns with
    | .null, _ => rfl
    | .bool b, _ => rfl
    | .num q, _ => rfl
    | .arr l, _ => rfl
    | .obj l, _ => rfl
    | .str s, hns => exact absurd rfl (hns s)
  · intro item hno
    match item, hno with
    | .null, _ => rfl
    | .bool b, _ => rfl
    | .num q, _ => rfl
    | .str s, _ => rfl
    | .arr l, _ => rfl
    | .obj f, hno => exact absurd rfl (hno f)
  · intro fields hso hct
    rw [processMcpToolResult, hso]
    match hc : fields.lookup "content".toList, hct with
    | none, _ => rfl
    | some .null, _ => rfl
    | some (.bool b), _ => rfl
    | some (.num q), _ => rfl
    | some (.str s), _ => rfl
    | some (.obj l), _ => rfl
    | some (.arr items), hct => exact absurd rfl (hct items)
  · intro r hno
    match r, hno with
    | .null, _ => rfl
    | .bool b, _ => rfl
    | .num q, _ => rfl
    | .str s, _ => rfl
    | .arr l, _ => rfl
    | .obj f, hno => exact absurd rfl (hno f)
  · intro tx v hj
    rw [parseTextContent, hj]
  · intro tx q hj hn
    rw [parseTextContent, hj, hn]
  · intro tx hj hn
    rw [parseTextContent, hj, hn]

theorem jsonParse_digit_seven : jsonParse "7".toList = some (.num 7) := by
  have h : jsonParse "7".toList = some (.num (1 * ((digitsVal "7".toList : ℚ)))) := rfl
  rw [h]
  norm_num [digitsVal]
  decide

/-- C5 (witness): concrete unwrapping runs — a `structured_output` field
wins; a lone text item whose text is no JSON and no number collapses to
that raw string; a two-item content array maps item-wise (the JSON text
`7` becomes the number `7`) without collapsing. -/
theorem C5_witness :
    processMcpToolResult
        (.obj [("structured_output".toList, .num 7), ("content".toList, .arr [])]) = .num 7 ∧
    processMcpToolResult
        (.obj [("content".toList,
          .arr [.obj [("type".toList, .str "text".toList),
                      ("text".toList, .str "hello".toList)]])]) =
      .str "hello".toList ∧
    processMcpToolResult
        (.obj [("content".toList,
          .arr [.obj [("type".toList, .str "text".toList),
                      ("text".toList, .str "7".toList)],
                .bool true])]) =
      .arr [.num 7, .bool true] := by
  refine ⟨C5_mcp_result_unwrapping.1 _ _ rfl, ?_, ?_⟩
  · have h := C5_mcp_result_unwrapping.2.1
      [("content".toList,
        .arr [.obj [("type".toList, .str "text".toList),
                    ("text".toList, .str "hello".toList)]])]
      (.obj [("type".toList, .str "text".toList),
             ("text".toList, .str "hello".toList)]) rfl rfl
    rw [h]
    have h2 := C5_mcp_result_unwrapping.2.2.2.1
      [("type".toList, .str "text".toList), ("text".toList, .str "hello".toList)]
      "hello".toList rfl rfl
    rw [h2]
    exact C5_mcp_result_unwrapping.2.2.2.2.2.2.2.2.2.2 "hello".toList rfl rfl
  · have h := C5_mcp_result_unwrapping.2.2.1
      [("content".toList,
        .arr [.obj [("type".toList, .str "text".toList),
                    ("text".toList, .str "7".toList)],
              .bool true])]
      [.obj [("type".toList, .str "text".toList), ("text".toList, .str "7".toList)],
        .bool true] rfl rfl (by decide)
    rw [h]
    have h2 := C5_mcp_result_unwrapping.2.2.2.1
      [("type".toList, .str "text".toList), ("text".toList, .str "7".toList)]
      "7".toList rfl rfl
    have h3 := C5_mcp_result_unwrapping.2.2.2.2.2.2.2.2.1 "7".toList (.num 7)
      jsonParse_digit_seven
    simp only [List.map_cons, List.map_nil, h2, h3]
    rfl

/-! ## Tag search strategy

Embeds `TagSearchStrategy.searchTools`
(`packages/core/src/implementations/tag_search_strategy.ts`).
`Array.prototype.sort` with comparator `(a, b) => b.score - a.score` is
required by ECMAScript to be a stable sort, so it is modelled by stable
insertion sort (earlier elements stay before equal-scored later
elements).  A second definition, `searchToolsSpec`, follows the claim's
words — exactly the positive-scored tools, ordered by descending score
with ties in original repository order, truncated — and the claim
theorem proves the two agree. -/

/-- Maximal runs of word characters: the matches of `/\w+/g` used for
query, tag and description words. -/
def wordsOf : Str → List Str
  | [] => []
  | c :: rest =>
    if isWordChar c then
      ((c :: rest).takeWhile isWordChar) :: wordsOf (rest.dropWhile isWordChar)
    else wordsOf rest
termination_by s => s.length
decreasing_by
  · have := length_dropWhile_le isWordChar rest
    simp
    omega
  · simp

/-- The optional any-of-tags prefilter: keep tools having at least one
tag (case-insensitively) in the required set; skipped when the argument
is absent or empty. -/
def prefilterTools (tools : List Tool) (anyOfTagsRequired : Option (List Str)) : List Tool :=
  match anyOfTagsRequired with
  | some req =>
    if req.isEmpty then tools
    else
      let reqLower := req.map toLowerStr
      tools.filter (fun t => t.tags.any (fun tag => decide (toLowerStr tag ∈ reqLower)))
  | none => tools

/-- Per-tool score: full tag weight for each tag containing the whole
lowercased query or vice versa, half tag weight for each distinct word
shared between that tag and the query, and description weight for each
distinct description word of length above 2 shared with the query. -/
def toolScore (tagWeight descWeight : ℚ) (queryLower : Str) (queryWords : List Str)
    (tool : Tool) : ℚ :=
  (tool.tags.map (fun tag =>
    let tagLower := toLowerStr tag
    (if strContains queryLower tagLower || strContains tagLower queryLower
      then tagWeight else 0) +
    (((wordsOf tagLower).dedup.map
      (fun w => if w ∈ queryWords then tagWeight * (1 / 2) else 0)).sum))).sum +
  (((wordsOf (toLowerStr tool.description)).dedup.map
    (fun w => if w ∈ queryWords ∧ 2 < w.length then descWeight else 0)).sum)

/-- Stable insertion into a list sorted by descending score: the new,
earlier element goes before every equal-or-lower-scored element. -/
def insertByScore (x : Tool × ℚ) : List (Tool × ℚ) → List (Tool × ℚ)
  | [] => [x]
  | y :: ys => if x.2 ≥ y.2 then x :: y :: ys else y :: insertByScore x ys

/-- Stable sort by descending score (the model of
`toolScores.sort((a, b) => b.score - a.score)`). -/
def sortByScoreDesc (l : List (Tool × ℚ)) : List (Tool × ℚ) :=
  l.foldr insertByScore []

/-- `TagSearchStrategy.searchTools`: prefilter, score, sort stably by
descending score, drop zero scores, project the tools, truncate to
`limit` (`0` = unlimited). -/
def searchTools (tagWeight descWeight : ℚ) (tools : List Tool) (query : Str)
    (limit : Nat) (anyOfTagsRequired : Option (List Str)) : List Tool :=
  let queryLower := toLowerStr query
  let queryWords := (wordsOf queryLower).dedup
  let pre := prefilterTools tools anyOfTagsRequired
  let toolScores := pre.map (fun t => (t, toolScore tagWeight descWeight queryLower queryWords t))
  let sorted := sortByScoreDesc toolScores
  let result := (sorted.filter (fun p => decide (0 < p.2))).map Prod.fst
  if 0 < limit then result.take limit else result

/-- Insertion ordered by the lexicographic key (score descending,
original index ascending); indices are distinct, so this order is
total and strict. -/
def lexInsert (x : Tool × ℚ × ℕ) : List (Tool × ℚ × ℕ) → List (Tool × ℚ × ℕ)
  | [] => [x]
  | y :: ys =>
    if x.2.1 > y.2.1 ∨ (x.2.1 = y.2.1 ∧ x.2.2 < y.2.2) then x :: y :: ys
    else y :: lexInsert x ys

/-- Sort by the (score descending, original index ascending) key. -/
def lexSort (l : List (Tool × ℚ × ℕ)) : List (Tool × ℚ × ℕ) :=
  l.foldr lexInsert []

/-- The claim's description of the search result: exactly the
prefiltered tools with strictly positive score, in descending score
order with ties kept in original repository order, truncated to `limit`
when `limit > 0` and untruncated when `limit = 0`. -/
def searchToolsSpec (tagWeight descWeight : ℚ) (tools : List Tool) (query : Str)
    (limit : Nat) (anyOfTagsRequired : Option (List Str)) : List Tool :=
  let queryLower := toLowerStr query
  let queryWords := (wordsOf queryLower).dedup
  let pre := prefilterTools tools anyOfTagsRequired
  let keyed := pre.enum.map
    (fun p => (p.2, toolScore tagWeight descWeight queryLower queryWords p.2, p.1))
  let positive := keyed.filter (fun x => decide (0 < x.2.1))
  let ranked := (lexSort positive).map (fun x => x.1)
  if 0 < limit then ranked.take limit else ranked

/-- The strict lexicographic order (score descending, then original
index ascending) that `lexInsert` inserts by. -/
abbrev lexGT (a b : Tool × ℚ × ℕ) : Prop :=
  a.2.1 > b.2.1 ∨ (a.2.1 = b.2.1 ∧ a.2.2 < b.2.2)

/-- The reflexive closure of `lexGT` on distinct-index items. -/
abbrev lexGE (a b : Tool × ℚ × ℕ) : Prop :=
  a.2.1 > b.2.1 ∨ (a.2.1 = b.2.1 ∧ a.2.2 ≤ b.2.2)

theorem lexGE_of_lexGT {x y : Tool × ℚ × ℕ} (h : lexGT x y) : lexGE x y := by
  rcases h with h | ⟨he, hi⟩
  · exact Or.inl h
  · exact Or.inr ⟨he, le_of_lt hi⟩

theorem lexGT_trans_lexGE {x y z : Tool × ℚ × ℕ} (h1 : lexGT x y) (h2 : lexGE y z) :
    lexGT x z := by
  rcases h1 with h1 | ⟨h1e, h1i⟩ <;> rcases h2 with h2 | ⟨h2e, h2i⟩
  · exact Or.inl (gt_trans h1 h2)
  · exact Or.inl (h2e ▸ h1)
  · exact Or.inl (h1e ▸ h2)
  · exact Or.inr ⟨h1e.trans h2e, lt_of_lt_of_le h1i h2i⟩

theorem lexGE_flip_of_not_lexGT {x y : Tool × ℚ × ℕ} (h : ¬lexGT x y) : lexGE y x := by
  by_cases hlt : y.2.1 > x.2.1
  · exact Or.inl hlt
  · have hle : y.2.1 ≤ x.2.1 := not_lt.mp hlt
    have hxle : x.2.1 ≤ y.2.1 := by
      by_contra hgt
      exact h (Or.inl (not_le.mp hgt))
    have heq : x.2.1 = y.2.1 := le_antisymm hxle hle
    have hidx : ¬(x.2.2 < y.2.2) := fun hi => h (Or.inr ⟨heq, hi⟩)
    exact Or.inr ⟨heq.symm, not_lt.mp hidx⟩

theorem mem_lexInsert {z x : Tool × ℚ × ℕ} {l : List (Tool × ℚ × ℕ)} :
    z ∈ lexInsert x l ↔ z = x ∨ z ∈ l := by
  induction l with
  | nil => simp [lexInsert]
  | cons y ys ih =>
    rw [lexInsert]
    split
    · simp [List.mem_cons]
    · simp only [List.mem_cons, ih]
      tauto

theorem lexInsert_front (x : Tool × ℚ × ℕ) (l : List (Tool × ℚ × ℕ))
    (h : ∀ z ∈ l, lexGT x z) : lexInsert x l = x :: l := by
  cases l with
  | nil => rfl
  | cons y ys => rw [lexInsert, if_pos (h y (List.mem_cons_self y ys))]

theorem sorted_lexInsert (x : Tool × ℚ × ℕ) (l : List (Tool × ℚ × ℕ))
    (h : l.Pairwise lexGE) : (lexInsert x l).Pairwise lexGE := by
  induction l with
  | nil => simp [lexInsert]
  | cons y ys ih =>
    rw [List.pairwise_cons] at h
    rw [lexInsert]
    split
    · next hgt =>
      rw [List.pairwise_cons]
      refine ⟨?_, List.pairwise_cons.mpr h⟩
      intro z hz
      rcases List.mem_cons.mp hz with hz | hz
      · exact hz ▸ lexGE_of_lexGT hgt
      · exact lexGE_of_lexGT (lexGT_trans_lexGE hgt (h.1 z hz))
    · next hngt =>
      rw [List.pairwise_cons]
      refine ⟨?_, ih h.2⟩
      intro z hz
      rcases mem_lexInsert.mp hz with hz | hz
      · exact hz ▸ lexGE_flip_of_not_lexGT hngt
      · exact h.1 z hz

theorem filter_lexInsert (p : (Tool × ℚ × ℕ) → Bool) (x : Tool × ℚ × ℕ)
    (l : List (Tool × ℚ × ℕ)) (hs : l.Pairwise lexGE) :
    (lexInsert x l).filter p =
      if p x then lexInsert x (l.filter p) else l.filter p := by
  induction l with
  | nil =>
    by_cases hp : p x <;> simp [lexInsert, List.filter, hp]
  | cons y ys ih =>
    rw [List.pairwise_cons] at hs
    by_cases hgt : lexGT x y
    · rw [lexInsert, if_pos hgt]
      by_cases hp : p x
      · by_cases hpy : p y
        · simp [List.filter_cons, hp, hpy, lexInsert, if_pos hgt]
        · simp only [List.filter_cons, hp, hpy, if_pos, Bool.false_eq_true, if_false, if_true]
          rw [lexInsert_front]
          intro z hz
          exact lexGT_trans_lexGE hgt (hs.1 z (List.mem_of_mem_filter hz))
      · simp [List.filter_cons, hp]
    · rw [lexInsert, if_neg hgt]
      by_cases hp : p x
      · by_cases hpy : p y
        · simp only [List.filter_cons, hpy, if_true, hp, ih hs.2]
          rw [lexInsert, if_neg hgt]
        · simp [List.filter_cons, hpy, hp, ih hs.2]
      · by_cases hpy : p y <;> simp [List.filter_cons, hpy, hp, ih hs.2]

theorem sorted_lexSort (l : List (Tool × ℚ × ℕ)) : (lexSort l).Pairwise lexGE := by
  induction l with
  | nil => simp [lexSort]
  | cons x xs ih => exact sorted_lexInsert x (lexSort xs) ih

theorem filter_lexSort (p : (Tool × ℚ × ℕ) → Bool) (l : List (Tool × ℚ × ℕ)) :
    (lexSort l).filter p = lexSort (l.filter p) := by
  induction l with
  | nil => rfl
  | cons x xs ih =>
    show (lexInsert x (lexSort xs)).filter p = lexSort ((x :: xs).filter p)
    rw [filter_lexInsert p x (lexSort xs) (sorted_lexSort xs), ih]
    by_cases hp : p x <;> simp [List.filter_cons, hp, lexSort]

theorem mem_lexSort {z : Tool × ℚ × ℕ} {l : List (Tool × ℚ × ℕ)} :
    z ∈ lexSort l ↔ z ∈ l := by
  induction l with
  | nil => simp [lexSort]
  | cons x xs ih =>
    show z ∈ lexInsert x (lexSort xs) ↔ _
    rw [mem_lexInsert, ih]
    simp [List.mem_cons]

/-- Forget the original index of a keyed entry. -/
def dropIdx (x : Tool × ℚ × ℕ) : Tool × ℚ := (x.1, x.2.1)

theorem insertByScore_proj (x : Tool × ℚ × ℕ) (l : List (Tool × ℚ × ℕ))
    (h : ∀ y ∈ l, x.2.2 < y.2.2) :
    insertByScore (dropIdx x) (l.map dropIdx) = (lexInsert x l).map dropIdx := by
  induction l with
  | nil => rfl
  | cons y ys ih =>
    have hidx : x.2.2 < y.2.2 := h y (List.mem_cons_self y ys)
    by_cases hc : lexGT x y
    · have hge : (dropIdx x).2 ≥ (dropIdx y).2 := by
        rcases hc with hc | ⟨hce, _⟩
        · exact le_of_lt hc
        · exact le_of_eq hce.symm
      rw [List.map_cons, insertByScore, if_pos hge, lexInsert, if_pos hc, List.map_cons,
        List.map_cons]
    · have hnge : ¬((dropIdx x).2 ≥ (dropIdx y).2) := by
        intro hge
        rcases lt_or_eq_of_le hge with hlt | heq
        · exact hc (Or.inl hlt)
        · exact hc (Or.inr ⟨heq.symm, hidx⟩)
      rw [List.map_cons, insertByScore, if_neg hnge, lexInsert, if_neg hc, List.map_cons,
        ih (fun z hz => h z (List.mem_cons_of_mem y hz))]

theorem sortByScoreDesc_proj (ks : List (Tool × ℚ × ℕ))
    (h : ks.Pairwise (fun a b => a.2.2 < b.2.2)) :
    sortByScoreDesc (ks.map dropIdx) = (lexSort ks).map dropIdx := by
  induction ks with
  | nil => rfl
  | cons k ks' ih =>
    rw [List.pairwise_cons] at h
    show insertByScore (dropIdx k) (sortByScoreDesc (ks'.map dropIdx)) = _
    rw [ih h.2]
    rw [insertByScore_proj k (lexSort ks') (fun y hy => h.1 y (mem_lexSort.mp hy))]
    rfl

theorem le_fst_of_mem_enumFrom {α : Type} {l : List α} {n : ℕ} {x : ℕ × α}
    (h : x ∈ l.enumFrom n) : n ≤ x.1 := by
  induction l generalizing n with
  | nil => simp [List.enumFrom] at h
  | cons a as ih =>
    rcases List.mem_cons.mp h with h | h
    · simp [h]
    · exact le_of_lt (Nat.lt_of_lt_of_le (Nat.lt_succ_self n) (ih h))

theorem pairwise_fst_lt_enumFrom {α : Type} (l : List α) (n : ℕ) :
    (l.enumFrom n).Pairwise (fun a b => a.1 < b.1) := by
  induction l generalizing n with
  | nil => simp [List.enumFrom]
  | cons a as ih =>
    rw [List.enumFrom]
    rw [List.pairwise_cons]
    exact ⟨fun y hy => Nat.lt_of_lt_of_le (Nat.lt_succ_self n) (le_fst_of_mem_enumFrom hy),
      ih (n + 1)⟩

theorem filter_map_comm {α β : Type} (f : α → β) (p : β → Bool) (l : List α) :
    (l.map f).filter p = (l.filter (fun a => p (f a))).map f := by
  induction l with
  | nil => rfl
  | cons a as ih =>
    by_cases hp : p (f a) <;> simp [List.filter_cons, hp, ih]

/-- C6: `searchTools` returns exactly what the claim describes: after the
case-insensitive any-of-tags prefilter, exactly the tools with strictly
positive score, sorted by descending score with ties kept in original
repository order (stable sort), truncated to the first `limit` elements
when `limit > 0` and untruncated when `limit = 0`; the score is the
tag/word-overlap formula embedded in `toolScore`. -/
theorem C6_search_ranking (tagWeight descWeight : ℚ) (tools : List Tool) (query : Str)
    (limit : Nat) (anyOfTagsRequired : Option (List Str)) :
    searchTools tagWeight descWeight tools query limit anyOfTagsRequired =
      searchToolsSpec tagWeight descWeight tools query limit anyOfTagsRequired := by
  unfold searchTools searchToolsSpec
  simp only []
  have hpair : (((prefilterTools tools anyOfTagsRequired).enum.map
      (fun p => (p.2, toolScore tagWeight descWeight (toLowerStr query)
        ((wordsOf (toLowerStr query)).dedup) p.2, p.1)))).Pairwise
      (fun a b => a.2.2 < b.2.2) := by
    refine List.Pairwise.map _ ?_ (pairwise_fst_lt_enumFrom (prefilterTools tools anyOfTagsRequired) 0)
    intro a b hab
    exact hab
  have hmapdrop : ((prefilterTools tools anyOfTagsRequired).enum.map
      (fun p => (p.2, toolScore tagWeight descWeight (toLowerStr query)
        ((wordsOf (toLowerStr query)).dedup) p.2, p.1))).map dropIdx =
      (prefilterTools tools anyOfTagsRequired).map
        (fun t => (t, toolScore tagWeight descWeight (toLowerStr query)
          ((wordsOf (toLowerStr query)).dedup) t)) := by
    rw [List.map_map]
    have henum : (prefilterTools tools anyOfTagsRequired).enum.map Prod.snd =
        prefilterTools tools anyOfTagsRequired := List.enum_map_snd _
    calc ((prefilterTools tools anyOfTagsRequired).enum.map
          (dropIdx ∘ (fun p => (p.2, toolScore tagWeight descWeight (toLowerStr query)
            ((wordsOf (toLowerStr query)).dedup) p.2, p.1))))
        = ((prefilterTools tools anyOfTagsRequired).enum.map
            ((fun t => (t, toolScore tagWeight descWeight (toLowerStr query)
              ((wordsOf (toLowerStr query)).dedup) t)) ∘ Prod.snd)) := rfl
      _ = _ := by rw [← List.map_map, henum]
  rw [← hmapdrop,
    sortByScoreDesc_proj _ hpair,
    filter_map_comm dropIdx (fun p => decide (0 < p.2)) _]
  have hfeq : ((lexSort ((prefilterTools tools anyOfTagsRequired).enum.map
      (fun p => (p.2, toolScore tagWeight descWeight (toLowerStr query)
        ((wordsOf (toLowerStr query)).dedup) p.2, p.1)))).filter
      (fun a => decide (0 < (dropIdx a).2))) =
      lexSort (((prefilterTools tools anyOfTagsRequired).enum.map
        (fun p => (p.2, toolScore tagWeight descWeight (toLowerStr query)
          ((wordsOf (toLowerStr query)).dedup) p.2, p.1))).filter
        (fun x => decide (0 < x.2.1))) := by
    exact filter_lexSort _ _
  rw [hfeq, List.map_map]
  rfl

/-! ## CLI multi-step workflow

Embeds `CliCommunicationProtocol._substituteUtcpArgs` and the
output-aggregation stage of `_buildCombinedShellScript`
(`packages/cli/src/cli_communication_protocol.ts`, non-Windows branch).
Tool-argument values are modelled post-stringification (the host's
`String(value)` is out of scope), and each step's captured
`CMD_<i>_OUTPUT` value is an oracle.  The `$CMD_<i>_OUTPUT`
back-reference quoting rewrite of earlier steps is not modelled — no
claim concerns it. -/

/-- One step of a CLI workflow (`CommandStepSchema`). -/
structure CommandStep where
  command : Str
  append_to_final_output : Option Bool

/-- `step.append_to_final_output ?? isLastCommand`. -/
def shouldAppend (step : CommandStep) (isLast : Bool) : Bool :=
  step.append_to_final_output.getD isLast

/-- Indices of the steps whose captured output is emitted by the final
`echo` chain, in the order the chain emits them. -/
def includedSteps (commands : List CommandStep) : List ℕ :=
  commands.enum.filterMap
    (fun p => if shouldAppend p.2 (decide (p.1 = commands.length - 1)) then some p.1 else none)

/-- The stdout of the generated tail
`echo -n "$CMD_i_OUTPUT" && printf '\n' && ...`: the included captured
outputs joined by single newlines, in step order. -/
def finalOutput (commands : List CommandStep) (outputs : ℕ → Str) : Str :=
  List.intercalate ['\n'] ((includedSteps commands).map outputs)

theorem mem_enumFrom_iff {α : Type} (l : List α) (n i : ℕ) (x : α) :
    (i, x) ∈ l.enumFrom n ↔ n ≤ i ∧ l.get? (i - n) = some x := by
  induction l generalizing n with
  | nil => simp [List.enumFrom]
  | cons a as ih =>
    rw [List.enumFrom, List.mem_cons, ih (n + 1)]
    constructor
    · rintro (h | ⟨hn, hg⟩)
      · cases h
        exact ⟨le_refl _, by simp⟩
      · refine ⟨by omega, ?_⟩
        rw [show i - n = (i - (n + 1)) + 1 by omega]
        simpa using hg
    · rintro ⟨hn, hg⟩
      rcases Nat.eq_or_lt_of_le hn with heq | hlt
      · subst heq
        simp only [Nat.sub_self, List.get?_cons_zero, Option.some.injEq] at hg
        left
        rw [hg]
      · right
        refine ⟨hlt, ?_⟩
        rw [show i - n = ((i - (n + 1))) + 1 by omega] at hg
        simpa using hg

theorem mem_enum_iff {α : Type} (l : List α) (i : ℕ) (x : α) :
    (i, x) ∈ l.enum ↔ l.get? i = some x := by
  rw [List.enum, mem_enumFrom_iff]
  simp

/-- C7: a step's captured output is included in the final returned
string exactly when its `append_to_final_output` flag is true, an absent
flag defaulting to true for the last step and false for every other
step; the included outputs appear in strictly increasing step order and
are joined in that order. -/
theorem C7_output_aggregation (commands : List CommandStep) (outputs : ℕ → Str) :
    (∀ (i : ℕ) (step : CommandStep), commands.get? i = some step →
      (i ∈ includedSteps commands ↔
        (step.append_to_final_output = some true ∨
         (step.append_to_final_output = none ∧ i = commands.length - 1)))) ∧
    (includedSteps commands).Pairwise (· < ·) ∧
    finalOutput commands outputs =
      List.intercalate ['\n'] ((includedSteps commands).map outputs) := by
  refine ⟨?_, ?_, rfl⟩
  · intro i step hstep
    rw [includedSteps, List.mem_filterMap]
    constructor
    · rintro ⟨⟨j, st⟩, hmem, hf⟩
      by_cases hc : shouldAppend st (decide (j = commands.length - 1)) = true
      · rw [if_pos hc] at hf
        injection hf with hji
        subst hji
        have hst : st = step := by
          have hthis := (mem_enum_iff commands j st).mp hmem
          rw [hstep] at hthis
          exact (Option.some.inj hthis).symm
        subst hst
        rw [shouldAppend] at hc
        cases hflag : st.append_to_final_output with
        | some b =>
          rw [hflag] at hc
          simp only [Option.getD_some] at hc
          subst hc
          exact Or.inl rfl
        | none =>
          rw [hflag] at hc
          simp only [Option.getD_none, decide_eq_true_eq] at hc
          exact Or.inr ⟨rfl, hc⟩
      · rw [if_neg hc] at hf
        cases hf
    · intro h
      refine ⟨(i, step), (mem_enum_iff commands i step).mpr hstep, ?_⟩
      have hc : shouldAppend step (decide (i = commands.length - 1)) = true := by
        rw [shouldAppend]
        rcases h with h | ⟨h, hlast⟩
        · rw [h]
          rfl
        · rw [h, hlast]
          simp
      rw [if_pos hc]
  · have hp := pairwise_fst_lt_enumFrom commands 0
    rw [includedSteps]
    refine List.Pairwise.filterMap _ ?_ hp
    intro a b hab x hx y hy
    have hxa : x = a.1 := by
      by_cases hc : shouldAppend a.2 (decide (a.1 = commands.length - 1)) = true
      · rw [if_pos hc] at hx
        simp only [Option.mem_def, Option.some.injEq] at hx
        exact hx.symm
      · rw [if_neg hc] at hx
        simp at hx
    have hyb : y = b.1 := by
      by_cases hc : shouldAppend b.2 (decide (b.1 = commands.length - 1)) = true
      · rw [if_pos hc] at hy
        simp only [Option.mem_def, Option.some.injEq] at hy
        exact hy.symm
      · rw [if_neg hc] at hy
        simp at hy
    rw [hxa, hyb]
    exact hab

/-- C7 (witness): in the two-step workflow `cd /tmp; pwd` with no
explicit flags, only the last step's output is included. -/
theorem C7_witness :
    ((0 : ℕ) ∈ includedSteps [⟨"cd /tmp".toList, none⟩, ⟨"pwd".toList, none⟩] ↔
      ((none : Option Bool) = some true ∨
        ((none : Option Bool) = none ∧ (0 : ℕ) =
          ([⟨"cd /tmp".toList, none⟩, ⟨"pwd".toList, none⟩] : List CommandStep).length - 1))) ∧
    ((1 : ℕ) ∈ includedSteps [⟨"cd /tmp".toList, none⟩, ⟨"pwd".toList, none⟩] ↔
      ((none : Option Bool) = some true ∨
        ((none : Option Bool) = none ∧ (1 : ℕ) =
          ([⟨"cd /tmp".toList, none⟩, ⟨"pwd".toList, none⟩] : List CommandStep).length - 1))) :=
  ⟨(C7_output_aggregation [⟨"cd /tmp".toList, none⟩, ⟨"pwd".toList, none⟩]
      (fun _ => [])).1 0 ⟨"cd /tmp".toList, none⟩ rfl,
    (C7_output_aggregation [⟨"cd /tmp".toList, none⟩, ⟨"pwd".toList, none⟩]
      (fun _ => [])).1 1 ⟨"pwd".toList, none⟩ rfl⟩

/-- `UTCP_ARG_` and `_UTCP_END`, the placeholder delimiters of
`_substituteUtcpArgs`. -/
def utcpArgHead : Str := "UTCP_ARG_".toList

def utcpArgTail : Str := "_UTCP_END".toList

/-- The lazy group `([a-zA-Z0-9_]+?)` followed by the literal
`_UTCP_END`: the shortest non-empty word-character run after which the
end delimiter follows, together with the input after the delimiter. -/
def matchArgName : Str → Option (Str × Str)
  | [] => none
  | c :: rest =>
    if isWordChar c then
      if utcpArgTail.isPrefixOf rest then some ([c], rest.drop 9)
      else
        match matchArgName rest with
        | some (n, r) => some (c :: n, r)
        | none => none
    else none

theorem matchArgName_length {s n r} (h : matchArgName s = some (n, r)) :
    r.length < s.length := by
  induction s generalizing n r with
  | nil => simp [matchArgName] at h
  | cons c rest ih =>
    rw [matchArgName] at h
    by_cases hw : isWordChar c
    · rw [if_pos hw] at h
      by_cases hp : utcpArgTail.isPrefixOf rest = true
      · rw [if_pos hp] at h
        injection h with h1
        injection h1 with h1 h2
        subst h2
        have hlen : 9 ≤ rest.length := by
          have := List.IsPrefix.length_le (List.isPrefixOf_iff_prefix.mp hp)
          simpa [utcpArgTail] using this
        simp only [List.length_drop, List.length_cons]
        omega
      · rw [if_neg hp] at h
        cases hm : matchArgName rest with
        | none => rw [hm] at h; cases h
        | some p =>
          rw [hm] at h
          obtain ⟨n', r'⟩ := p
          injection h with h1
          injection h1 with h1 h2
          subst h2
          have := ih hm
          simp only [List.length_cons]
          omega
    · rw [if_neg hw] at h
      cases h

/-- `CliCommunicationProtocol._substituteUtcpArgs`
(`command.replace(/UTCP_ARG_([a-zA-Z0-9_]+?)_UTCP_END/g, ...)`): every
placeholder whose name is a tool-call argument is replaced by that
argument's (stringified) value, and a placeholder with a missing
argument is replaced by `MISSING_ARG_<name>` — the function never
fails. -/
def substituteUtcpArgs (toolArgs : List (Str × Str)) : Str → Str
  | [] => []
  | c :: rest =>
    if utcpArgHead.isPrefixOf (c :: rest) then
      match hm : matchArgName ((c :: rest).drop 9) with
      | some (n, r) =>
        (match toolArgs.lookup n with
         | some v => v
         | none => "MISSING_ARG_".toList ++ n) ++ substituteUtcpArgs toolArgs r
      | none => c :: substituteUtcpArgs toolArgs rest
    else c :: substituteUtcpArgs toolArgs rest
termination_by s => s.length
decreasing_by
  · have h1 := matchArgName_length hm
    have h2 : ((c :: rest).drop 9).length ≤ (c :: rest).length := by
      simp only [List.length_drop]
      omega
    simp only [List.length_cons] at *
    omega
  · simp
  · simp

theorem utcpArgTail_not_prefix (name' post : Str) (hne : name' ≠ [])
    (hinf : ¬("UTCP_END".toList <:+: name')) :
    ¬(utcpArgTail.isPrefixOf (name' ++ (utcpArgTail ++ post)) = true) := by
  intro h
  have hpre : utcpArgTail <+: (name' ++ (utcpArgTail ++ post)) :=
    List.isPrefixOf_iff_prefix.mp h
  have htake : utcpArgTail = (name' ++ (utcpArgTail ++ post)).take 9 := by
    have := List.prefix_iff_eq_take.mp hpre
    simpa [utcpArgTail] using this
  rcases le_or_lt 9 name'.length with hm | hm
  · rw [List.take_append_of_le_length hm] at htake
    apply hinf
    have h8 : (name'.take 9).drop 1 = "UTCP_END".toList := by
      rw [← htake]
      decide
    rw [← h8, List.drop_take]
    exact ((List.take_prefix _ _).isInfix).trans ((List.drop_suffix 1 name').isInfix)
  · have hm1 : 1 ≤ name'.length := List.length_pos.mpr hne
    rw [List.take_append_eq_append_take,
      List.take_all_of_le (le_of_lt hm)] at htake
    have hE := congrArg (List.drop name'.length) htake
    rw [List.drop_left] at hE
    have hsmall : 9 - name'.length ≤ 9 := by omega
    rw [List.take_append_of_le_length (by simpa [utcpArgTail] using hsmall)] at hE
    set m := name'.length with hmdef
    have hm8 : m ≤ 8 := by omega
    interval_cases m <;> exact absurd hE (by decide)

theorem matchArgName_exact (name post : Str) (hne : name ≠ [])
    (hw : ∀ c ∈ name, isWordChar c = true)
    (hinf : ¬("UTCP_END".toList <:+: name)) :
    matchArgName (name ++ (utcpArgTail ++ post)) = some (name, post) := by
  induction name with
  | nil => exact absurd rfl hne
  | cons c tail ih =>
    rw [List.cons_append, matchArgName, if_pos (hw c (List.mem_cons_self c tail))]
    by_cases htail : tail = []
    · subst htail
      rw [List.nil_append, if_pos (List.isPrefixOf_iff_prefix.mpr (List.prefix_append _ _))]
      rw [List.drop_left' (by simp [utcpArgTail])]
    · have hinf' : ¬("UTCP_END".toList <:+: tail) := by
        intro hi
        exact hinf (hi.trans (List.suffix_cons c tail).isInfix)
      have hnp := utcpArgTail_not_prefix tail post htail hinf'
      rw [if_neg hnp, ih htail (fun d hd => hw d (List.mem_cons_of_mem c hd)) hinf']

theorem substituteUtcpArgs_head_hit (toolArgs : List (Str × Str)) (s n r : Str)
    (hpre : utcpArgHead.isPrefixOf s = true)
    (hm : matchArgName (s.drop 9) = some (n, r)) :
    substituteUtcpArgs toolArgs s =
      (match toolArgs.lookup n with
       | some v => v
       | none => "MISSING_ARG_".toList ++ n) ++ substituteUtcpArgs toolArgs r := by
  cases s with
  | nil => simp [utcpArgHead, List.isPrefixOf] at hpre
  | cons c rest =>
    rw [substituteUtcpArgs, if_pos hpre]
    split
    · next n' r' heq =>
      rw [hm] at heq
      injection heq with heq
      injection heq with h1 h2
      subst h1
      subst h2
      rfl
    · next heq =>
      rw [hm] at heq
      cases heq

/-- C9: in the CLI workflow, a `UTCP_ARG_<name>_UTCP_END` placeholder
whose name is absent from the tool-call arguments does not fail the
substitution: it is replaced by the literal `MISSING_ARG_<name>` and
processing of the rest of the command continues (the assembled script is
still built and executed).  `<name>` is a placeholder as the regex
recognizes it: a non-empty run of word characters not containing
`UTCP_END`. -/
theorem C9_missing_arg_placeholder (toolArgs : List (Str × Str)) (name post : Str)
    (hne : name ≠ []) (hw : ∀ c ∈ name, isWordChar c = true)
    (hinf : ¬("UTCP_END".toList <:+: name))
    (hmiss : toolArgs.lookup name = none) :
    substituteUtcpArgs toolArgs (utcpArgHead ++ name ++ (utcpArgTail ++ post)) =
      "MISSING_ARG_".toList ++ name ++ substituteUtcpArgs toolArgs post := by
  have hpre : utcpArgHead.isPrefixOf (utcpArgHead ++ name ++ (utcpArgTail ++ post)) = true := by
    rw [List.append_assoc]
    exact List.isPrefixOf_iff_prefix.mpr (List.prefix_append _ _)
  have hdrop : (utcpArgHead ++ name ++ (utcpArgTail ++ post)).drop 9 =
      name ++ (utcpArgTail ++ post) := by
    rw [List.append_assoc]
    exact List.drop_left' (by simp [utcpArgHead])
  have hmatch : matchArgName ((utcpArgHead ++ name ++ (utcpArgTail ++ post)).drop 9) =
      some (name, post) := by
    rw [hdrop]
    exact matchArgName_exact name post hne hw hinf
  rw [substituteUtcpArgs_head_hit toolArgs _ name post hpre hmatch, hmiss,
    List.append_assoc]

/-- C9 (witness): substituting `echo UTCP_ARG_city_UTCP_END` with no
`city` argument yields `echo MISSING_ARG_city` rather than failing. -/
theorem C9_witness :
    substituteUtcpArgs [("other".toList, "1".toList)]
        (utcpArgHead ++ "city".toList ++ (utcpArgTail ++ " done".toList)) =
      "MISSING_ARG_".toList ++ "city".toList ++
        substituteUtcpArgs [("other".toList, "1".toList)] " done".toList :=
  C9_missing_arg_placeholder [("other".toList, "1".toList)] "city".toList " done".toList
    (by decide) (by decide) (by decide) (by decide)

/-! ## HTTP discovery security gate

Embeds the URL gate of `HttpCommunicationProtocol.registerManual`
(`packages/http/src/http_communication_protocol.ts`, lines 48-59): a
string-prefix test run before the discovery request; its throw is caught
by the surrounding handler and reported as a failed
`RegisterManualResult`.  The discovery pipeline behind the gate is an
oracle returning the would-be `(success, errors)`; the last component of
the result records whether a network request was sent. -/

/-- The gate's condition:
`url.startsWith('https://') || url.startsWith('http://localhost') || url.startsWith('http://127.0.0.1')`. -/
def isAllowedDiscoveryUrl (url : Str) : Bool :=
  "https://".toList.isPrefixOf url || "http://localhost".toList.isPrefixOf url ||
    "http://127.0.0.1".toList.isPrefixOf url

/-- The thrown security-error message. -/
def securityErrorMsg (url : Str) : Str :=
  ("Security error: URL must use HTTPS or start with " ++
    "'http://localhost' or 'http://127.0.0.1'. Got: ").toList ++ url ++
    ". Non-secure URLs are vulnerable to man-in-the-middle attacks.".toList

/-- `HttpCommunicationProtocol.registerManual` around the gate: a
blocked URL yields `success = false` with the security error and no
request; an allowed URL proceeds to the discovery pipeline. -/
def httpRegisterManual (url : Str) (discover : Str → Bool × List Str) :
    Bool × List Str × Bool :=
  if isAllowedDiscoveryUrl url then
    ((discover url).1, (discover url).2, true)
  else (false, [securityErrorMsg url], false)

/-- The host component of a URL, following the claim's reading of
"refers to localhost or 127.0.0.1": the authority between the scheme
separator and the next `/`, `:`, `?` or `#`. -/
def urlHost (url : Str) : Str :=
  let rest :=
    if "https://".toList.isPrefixOf url then url.drop 8
    else if "http://".toList.isPrefixOf url then url.drop 7
    else url
  rest.takeWhile (fun c => !(c = '/' || c = ':' || c = '?' || c = '#'))

/-- C8 (counterexample): `http://localhost.evil.com/manual` does not use
HTTPS and does not refer to host `localhost` or `127.0.0.1`, yet the
gate passes it — the registration proceeds and the discovery request is
sent, where the claim requires a security rejection before any network
request. -/
theorem C8_counterexample :
    isAllowedDiscoveryUrl "http://localhost.evil.com/manual".toList = true ∧
    "https://".toList.isPrefixOf "http://localhost.evil.com/manual".toList = false ∧
    urlHost "http://localhost.evil.com/manual".toList ≠ "localhost".toList ∧
    urlHost "http://localhost.evil.com/manual".toList ≠ "127.0.0.1".toList ∧
    httpRegisterManual "http://localhost.evil.com/manual".toList (fun _ => (true, [])) =
      (true, [], true) := by
  decide

/-- C8 (amended): the gate is a string-prefix test.  `registerManual`
rejects — reporting `success = false` with the security error, before
any network request — exactly those discovery URLs starting with none of
`https://`, `http://localhost`, `http://127.0.0.1`; any URL with one of
those three prefixes (which includes every HTTPS URL and plain HTTP to
localhost/127.0.0.1, but also e.g. `http://localhost.evil.com`) passes
the gate and the discovery request is sent. -/
theorem C8_security_gate (url : Str) (discover : Str → Bool × List Str) :
    (isAllowedDiscoveryUrl url = false →
      httpRegisterManual url discover = (false, [securityErrorMsg url], false)) ∧
    (isAllowedDiscoveryUrl url = true →
      httpRegisterManual url discover = ((discover url).1, (discover url).2, true)) ∧
    (isAllowedDiscoveryUrl url = true ↔
      ("https://".toList.isPrefixOf url = true ∨
       "http://localhost".toList.isPrefixOf url = true ∨
       "http://127.0.0.1".toList.isPrefixOf url = true)) := by
  refine ⟨?_, ?_, ?_⟩
  · intro h
    rw [httpRegisterManual, if_neg (by simp [h])]
  · intro h
    rw [httpRegisterManual, if_pos h]
  · simp only [isAllowedDiscoveryUrl, Bool.or_eq_true]
    tauto

/-- C8 (witness): `http://evil.com/x` is rejected with the security
error and no request; `https://api.example.com/utcp` passes the gate and
the request is sent. -/
theorem C8_witness :
    httpRegisterManual "http://evil.com/x".toList (fun _ => (true, [])) =
      (false, [securityErrorMsg "http://evil.com/x".toList], false) ∧
    httpRegisterManual "https://api.example.com/utcp".toList (fun _ => (true, [])) =
      (true, [], true) :=
  ⟨(C8_security_gate "http://evil.com/x".toList (fun _ => (true, []))).1 (by decide),
    (C8_security_gate "https://api.example.com/utcp".toList (fun _ => (true, []))).2.1
      (by decide)⟩

end Utcp
